import Mathlib

/-!
# Coord: a shallow embedding of `coord.h` / `main.cpp`

The class template `Coord<T>` is embedded for the integer instantiations of
`T` and, in a section of its own, for `Coord<float>`.  In an integer
instantiation a stored component is an `Int`; the instantiation decides how a value
is reduced when it is stored in a `T` and in which type an arithmetic
operator computes (C++ integral promotion, with `int` taken to be 32 bits
wide, as the bit trick in `inv_sqrt` assumes).  The `double` that `Slope` and
`Tri_Area` return is the integer rounded by `toDouble`; the sum `Man_Dist`
returns and the radicand handed to the square root are kept as integers.
The text written to `cout` is the list of lines emitted.
-/

namespace CoordSpec

/-- Widths of the fixed-width integer types. -/
inductive Width where
  | w8 : Width
  | w16 : Width
  | w32 : Width
  | w64 : Width
  deriving DecidableEq, Repr

/-- Number of bits of a width. -/
def Width.bits : Width → Nat
  | .w8 => 8
  | .w16 => 16
  | .w32 => 32
  | .w64 => 64

/-- The numeric type `T` of `Coord<T>`: `exact` is a signed integer type in
which no operation overflows (its values are the integers), `sint w` the
two's-complement type of width `w`, `uint w` the unsigned type of width `w`
(`uint .w16` is the default `uint16_t`). -/
inductive NumTy where
  | exact : NumTy
  | sint (w : Width) : NumTy
  | uint (w : Width) : NumTy
  deriving DecidableEq, Repr

/-- Reduction of an integer to the unsigned `n`-bit range. -/
def wrapU (n : Nat) (v : Int) : Int := v % 2 ^ n

/-- Reduction of an integer to the two's-complement `n`-bit range. -/
def wrapS (n : Nat) (v : Int) : Int := (v + 2 ^ (n - 1)) % 2 ^ n - 2 ^ (n - 1)

/-- Conversion of a value to the type `T` (what a store into a `T` keeps). -/
def NumTy.conv : NumTy → Int → Int
  | .exact, v => v
  | .sint w, v => wrapS w.bits v
  | .uint w, v => wrapU w.bits v

/-- Integral promotion: the type in which an arithmetic operator on operands
of type `T` computes.  Types narrower than `int` are promoted to `int`. -/
def NumTy.promote : NumTy → NumTy
  | .exact => .exact
  | .sint w => if w.bits < 32 then .sint .w32 else .sint w
  | .uint w => if w.bits < 32 then .sint .w32 else .uint w

/-- Result of an arithmetic operator whose mathematical result is `v`:
reduced to the promoted type (wrap-around on overflow). -/
def NumTy.arith (t : NumTy) (v : Int) : Int := t.promote.conv v

/-- The class `Coord<T>`: two components. -/
structure Coord where
  x : Int
  y : Int
  deriving DecidableEq, Repr

/-- A coordinate whose components are values of the type `T`. -/
def Coord.WF (t : NumTy) (A : Coord) : Prop := t.conv A.x = A.x ∧ t.conv A.y = A.y

instance (t : NumTy) (A : Coord) : Decidable (Coord.WF t A) := by
  unfold Coord.WF; infer_instance

/-- Constructor `Coord(T x_cor, T y_cor)`. -/
def Coord.make (t : NumTy) (x_cor y_cor : Int) : Coord := ⟨t.conv x_cor, t.conv y_cor⟩

/-- `absolute`: `(x >= 0) ? x : -x`, with parameter and result of type `T`. -/
def absolute (t : NumTy) (v : Int) : Int :=
  let x := t.conv v
  t.conv (if x ≥ 0 then x else t.arith (-x))

/-- `check`: `(A.x == B.x) && (A.y == B.y)`. -/
def check (A B : Coord) : Bool := decide (A.x = B.x) && decide (A.y = B.y)

/-- `operator+`: componentwise sum, each stored in a `T`. -/
def add (t : NumTy) (A B : Coord) : Coord :=
  ⟨t.conv (t.arith (A.x + B.x)), t.conv (t.arith (A.y + B.y))⟩

/-- `operator-`: componentwise difference, each stored in a `T`. -/
def sub (t : NumTy) (A B : Coord) : Coord :=
  ⟨t.conv (t.arith (A.x - B.x)), t.conv (t.arith (A.y - B.y))⟩

/-- The value `dx*dx + dy*dy` that `Dist` hands to the square root. -/
def radicand (t : NumTy) (A B : Coord) : Int :=
  let dx := (sub t A B).x
  let dy := (sub t A B).y
  t.arith (t.arith (dx * dx) + t.arith (dy * dy))

/-- `Dist`: the square root strategy `sq` (`sqrt` in `main.cpp`, `_sqrt` in
`coord.h`) applied to the radicand. -/
def Dist {α : Type} (t : NumTy) (sq : Int → α) (A B : Coord) : α :=
  sq (radicand t A B)

/-- `Man_Dist`: `absolute((A-B).x) + absolute((A-B).y)`. -/
def Man_Dist (t : NumTy) (A B : Coord) : Int :=
  t.arith (absolute t (sub t A B).x + absolute t (sub t A B).y)

/-- The line `Slope` writes for a vertical segment. -/
def slopeMsg : String := "Undefined slope for vertical line."

/-- Floor of the binary logarithm, by fuel. -/
def log2Fuel : Nat → Nat → Nat
  | 0, _ => 0
  | fuel + 1, n => if n < 2 then 0 else log2Fuel fuel (n / 2) + 1

/-- The quotient `n / 2^s` rounded to nearest, ties to even. -/
def roundShift (n s : Nat) : Nat :=
  let q := n / 2 ^ s
  let r := n % 2 ^ s
  let half := 2 ^ (s - 1)
  if s = 0 then n
  else if r > half ∨ (r = half ∧ q % 2 = 1) then q + 1 else q

/-- Conversion of an integer to `double` (the return type of `Slope` and
`Tri_Area`): the nearest value with a 53-bit significand, ties to even.
Every integer of magnitude at most 2^53 is kept; the result is again an
integer.  The exponent range is not modelled: the integers of a 64-bit type
are far inside it. -/
def toDouble (v : Int) : Int :=
  let n := v.natAbs
  if n ≤ 2 ^ 53 then v
  else
    let s := log2Fuel n n - 52
    (if v < 0 then -1 else 1) * ((roundShift n s : Nat) : Int) * 2 ^ s

/-- The division `dy / dx` overflows: the promoted type is signed, `dy` is
its least value and `dx` is -1.  The behaviour is undefined (the division
instruction traps on x86). -/
def NumTy.divOverflows (t : NumTy) (dy dx : Int) : Bool :=
  match t.promote with
  | .sint w => decide (dy = -(2 ^ (w.bits - 1)) ∧ dx = -1)
  | _ => false

/-- `Slope`: the `double` returned and the lines written to `cout`; `none`
when the division overflows and no result is defined. -/
def Slope (t : NumTy) (A B : Coord) : Option (Int × List String) :=
  let dx := (sub t A B).x
  let dy := (sub t A B).y
  if dx = 0 then some (0, [slopeMsg])
  else if t.divOverflows dy dx then none
  else some (toDouble (t.arith (Int.tdiv dy dx)), [])

/-- The shoelace expression
`A.x*((B-C).y) + B.x*((C-A).y) + C.x*((A-B).y)` of `Tri_Area`. -/
def shoelace (t : NumTy) (A B C : Coord) : Int :=
  t.arith (t.arith (t.arith (A.x * (sub t B C).y) + t.arith (B.x * (sub t C A).y))
    + t.arith (C.x * (sub t A B).y))

/-- `Tri_Area`: 0 when two of the points coincide, else the absolute value of
the halved shoelace expression, returned as a `double`. -/
def Tri_Area (t : NumTy) (A B C : Coord) : Int :=
  if check A B || check A C || check B C then 0
  else toDouble (absolute t (t.arith (Int.tdiv (shoelace t A B C) 2)))

/-- The line `Radius` writes for a triangle of area 0. -/
def radiusMsg : String := "Area of the triangle is 0. Unable to find the radius."

/-- `Radius`: result and the lines written to `cout`. -/
def Radius {α : Type} [DivisionRing α] (t : NumTy) (sq : Int → α) (A B C : Coord) :
    α × List String :=
  let tri_area := Tri_Area t A B C
  if tri_area = 0 then (0, [radiusMsg])
  else (Dist t sq A B * Dist t sq B C * Dist t sq C A / 4 / (tri_area : α), [])

/-- The value `v` is kept unchanged by a store into a `T`, and by the
promoted type in which it was computed. -/
def NumTy.inT (t : NumTy) (v : Int) : Prop := t.arith v = v ∧ t.conv v = v

/-- The value `v` is representable in the promoted type of `T`. -/
def NumTy.inP (t : NumTy) (v : Int) : Prop := t.arith v = v

instance (t : NumTy) (v : Int) : Decidable (t.inT v) := by
  unfold NumTy.inT; infer_instance

instance (t : NumTy) (v : Int) : Decidable (t.inP v) := by
  unfold NumTy.inP; infer_instance

/-- The signed instantiations. -/
def NumTy.isSigned : NumTy → Bool
  | .exact => true
  | .sint _ => true
  | .uint _ => false

/-- No intermediate result of `Dist(A, B)` and `Man_Dist(A, B)` overflows:
the two differences, the two squares and their sum, the two absolute values
and their sum. -/
def DistNoOverflow (t : NumTy) (A B : Coord) : Prop :=
  (t.inT (A.x - B.x) ∧ t.inT (A.y - B.y)) ∧
  (t.inP ((A.x - B.x) * (A.x - B.x)) ∧ t.inP ((A.y - B.y) * (A.y - B.y)) ∧
    t.inP ((A.x - B.x) * (A.x - B.x) + (A.y - B.y) * (A.y - B.y))) ∧
  (t.inT |A.x - B.x| ∧ t.inT |A.y - B.y| ∧ t.inP (|A.x - B.x| + |A.y - B.y|))

instance (t : NumTy) (A B : Coord) : Decidable (DistNoOverflow t A B) := by
  unfold DistNoOverflow; infer_instance

/-- The shoelace sum over the integers. -/
def shoelaceZ (A B C : Coord) : Int :=
  A.x * (B.y - C.y) + B.x * (C.y - A.y) + C.x * (A.y - B.y)

/-- No intermediate result of the else-branch of `Tri_Area(A, B, C)`
overflows: the three differences, the three products, the two sums, the
halved sum that is passed to `absolute` and the absolute value returned. -/
def TriNoOverflow (t : NumTy) (A B C : Coord) : Prop :=
  (t.inT (B.y - C.y) ∧ t.inT (C.y - A.y) ∧ t.inT (A.y - B.y)) ∧
  (t.inP (A.x * (B.y - C.y)) ∧ t.inP (B.x * (C.y - A.y)) ∧ t.inP (C.x * (A.y - B.y))) ∧
  (t.inP (A.x * (B.y - C.y) + B.x * (C.y - A.y)) ∧ t.inP (shoelaceZ A B C)) ∧
  t.inT (Int.tdiv (shoelaceZ A B C) 2) ∧ t.inT |Int.tdiv (shoelaceZ A B C) 2|

instance (t : NumTy) (A B C : Coord) : Decidable (TriNoOverflow t A B C) := by
  unfold TriNoOverflow; infer_instance

/-- The objects of a program state: a store maps the address of a `Coord`
object to its value.  A reference parameter is an address. -/
def Store : Type := Nat → Coord

/-- Assignment to the object at address `a`. -/
def Store.set (σ : Store) (a : Nat) (v : Coord) : Store :=
  fun k => if k = a then v else σ k

/-- `operator+=` on references `A`, `B`: the two assignments in order, then
the reference `A` is returned. -/
def add_assign (t : NumTy) (σ : Store) (A B : Nat) : Store × Nat :=
  let σ1 := σ.set A ⟨t.conv (t.arith ((σ A).x + (σ B).x)), (σ A).y⟩
  let σ2 := σ1.set A ⟨(σ1 A).x, t.conv (t.arith ((σ1 A).y + (σ1 B).y))⟩
  (σ2, A)

/-- `operator-=` on references `A`, `B`: the two assignments in order, then
the reference `A` is returned. -/
def sub_assign (t : NumTy) (σ : Store) (A B : Nat) : Store × Nat :=
  let σ1 := σ.set A ⟨t.conv (t.arith ((σ A).x - (σ B).x)), (σ A).y⟩
  let σ2 := σ1.set A ⟨(σ1 A).x, t.conv (t.arith ((σ1 A).y - (σ1 B).y))⟩
  (σ2, A)

/-- No intermediate result of the else-branch of `Slope(A, B)` overflows:
the two differences and the quotient. -/
def SlopeNoOverflow (t : NumTy) (A B : Coord) : Prop :=
  t.inT (A.x - B.x) ∧ t.inT (A.y - B.y) ∧ t.inP (Int.tdiv (A.y - B.y) (A.x - B.x))

instance (t : NumTy) (A B : Coord) : Decidable (SlopeNoOverflow t A B) := by
  unfold SlopeNoOverflow; infer_instance

/-- The decimal digits of `n`, least significant first, by fuel. -/
def decDigits : Nat → Nat → List Nat
  | 0, _ => []
  | fuel + 1, n => if n < 10 then [n] else n % 10 :: decDigits fuel (n / 10)

/-- The decimal numeral of a natural number: its digits, most significant
first, as the characters '0' to '9' (codes 48 to 57). -/
def decimalNat (n : Nat) : String :=
  String.mk ((decDigits (n + 1) n).reverse.map (fun d => Char.ofNat (48 + d)))

/-- The decimal rendering of an integer: a minus sign for a negative value,
then the numeral of the magnitude. -/
def decimal (v : Int) : String :=
  if v < 0 then "-" ++ decimalNat v.natAbs else decimalNat v.natAbs

/-- What the inserter `os << v` of a stream in its default state writes for a
value of type `T`: `int8_t` and `uint8_t` are character types and are written
as the one character whose code is the byte; every other integer type is
written in decimal. -/
def putT (t : NumTy) (v : Int) : String :=
  match t with
  | .sint .w8 => String.singleton (Char.ofNat (wrapU 8 v).toNat)
  | .uint .w8 => String.singleton (Char.ofNat (wrapU 8 v).toNat)
  | _ => decimal v

/-- `operator<<` for a `Coord<T>`: the stream is the text written so far. -/
def write (t : NumTy) (os : String) (A : Coord) : String :=
  os ++ "(" ++ putT t A.x ++ ", " ++ putT t A.y ++ ")"

/-! ### Single-precision arithmetic

A `float` is its 32-bit pattern (IEEE 754 binary32).  An operation decodes
its finite operands, computes exactly and rounds to nearest, ties to even;
it yields `none` when an operand is not finite or the result exceeds the
finite range.  Every operation is rounded to `float` on its own. -/

/-- A finite value: sign and magnitude `n * 2^e`. -/
structure Dyadic where
  neg : Bool
  n : Nat
  e : Int
  deriving DecidableEq, Repr

/-- The rational number a `Dyadic` stands for. -/
def Dyadic.val (d : Dyadic) : ℚ := (if d.neg then -1 else 1) * (d.n : ℚ) * 2 ^ d.e

/-- The finite value of a bit pattern (subnormal when the exponent field is
0), `none` for infinities and NaN. -/
def decode (b : Nat) : Option Dyadic :=
  let s : Nat := b / 2 ^ 31 % 2
  let E : Nat := b / 2 ^ 23 % 256
  let M : Nat := b % 2 ^ 23
  if E = 255 then none
  else if E = 0 then some ⟨s = 1, M, -149⟩
  else some ⟨s = 1, 2 ^ 23 + M, (E : Int) - 150⟩

/-- The bit pattern of an exact value rounded to `float`; `none` when the
rounded value is not finite. -/
def encode (d : Dyadic) : Option Nat :=
  if d.n = 0 then some (if d.neg then 2 ^ 31 else 0)
  else
    let L : Int := log2Fuel 400 d.n
    let qe : Int := max (L + d.e - 23) (-149)
    let q : Nat :=
      if qe ≤ d.e then d.n * 2 ^ (d.e - qe).toNat else roundShift d.n (qe - d.e).toNat
    let bits : Nat := (qe + 149).toNat * 2 ^ 23 + q
    if bits ≥ 0x7f800000 then none else some ((if d.neg then 2 ^ 31 else 0) + bits)

/-- The `float` product `a * b`. -/
def fmul (a b : Nat) : Option Nat := do
  let x ← decode a
  let y ← decode b
  encode ⟨xor x.neg y.neg, x.n * y.n, x.e + y.e⟩

/-- The signed integer `m` with `d = m * 2^e0`, for `e0` at most `d.e`. -/
def Dyadic.toInt (d : Dyadic) (e0 : Int) : Int :=
  (if d.neg then -1 else 1) * ((d.n : Int) * 2 ^ (d.e - e0).toNat)

/-- The `float` difference `a - b`. -/
def fsub (a b : Nat) : Option Nat := do
  let x ← decode a
  let y ← decode b
  let e0 := min x.e y.e
  let m := x.toInt e0 - y.toInt e0
  if m = 0 then some (if x.neg ∧ ¬ y.neg then 2 ^ 31 else 0)
  else encode ⟨decide (m < 0), m.natAbs, e0⟩

/-- Conversion of an integer to `float` (the argument of `_sqrt` in `Dist`). -/
def ofInt (r : Int) : Option Nat := encode ⟨decide (r < 0), r.natAbs, 0⟩

/-- The `int` read from the bits of a `float`: `*(int*)&x`. -/
def toInt32 (b : Nat) : Int := if b < 2 ^ 31 then b else (b : Int) - 2 ^ 32

/-- `inv_sqrt`: the magic-constant estimate `0x5f3759df - (i >> 1)` followed
by two refinements `x = x*(1.5f - xhalf*x*x)`; 0x3f000000 is `0.5f` and
0x3fc00000 is `1.5f`. -/
def inv_sqrt (x : Nat) : Option Nat := do
  let xhalf ← fmul 0x3f000000 x
  let i := toInt32 x
  let i := wrapS 32 (0x5f3759df - i / 2)
  let x := (wrapU 32 i).toNat
  let x ← fmul x (← fsub 0x3fc00000 (← fmul (← fmul xhalf x) x))
  let x ← fmul x (← fsub 0x3fc00000 (← fmul (← fmul xhalf x) x))
  return x

/-- `_sqrt`: `x*inv_sqrt(x)`. -/
def _sqrt (x : Nat) : Option Nat := do
  fmul x (← inv_sqrt x)

/-- The refinement step `x*(1.5 - xhalf*x*x)` of `inv_sqrt` in exact
arithmetic. -/
def newtonStep {α : Type} [Field α] (xhalf x : α) : α := x * (1.5 - xhalf * x * x)

/-- `inv_sqrt` in exact arithmetic from the initial estimate `x0`: the two
refinement steps with `xhalf = 0.5*v`. -/
def inv_sqrt_real {α : Type} [Field α] (v x0 : α) : α :=
  let xhalf := 0.5 * v
  let x1 := newtonStep xhalf x0
  newtonStep xhalf x1

/-- `_sqrt` in exact arithmetic from the initial estimate `x0`. -/
def sqrt_real {α : Type} [Field α] (v x0 : α) : α := v * inv_sqrt_real v x0

/-- Decides `999^2 * v < (1000 * s)^2 < 1001^2 * v` for non-negative `s` and
positive `v`, in integers scaled by a common power of two. -/
def sqrtErrOK (s v : Dyadic) : Bool :=
  let e0 := min (2 * s.e) v.e
  let S : Nat := 1000000 * (s.n * s.n) * 2 ^ (2 * s.e - e0).toNat
  let V : Nat := v.n * 2 ^ (v.e - e0).toNat
  !s.neg && !v.neg && decide (0 < v.n) && decide (998001 * V < S) && decide (S < 1002001 * V)

/-- The fast square root of the `float` with bits `v` is finite and passes
`sqrtErrOK` against `v`. -/
def fastSqrtOK (v : Nat) : Bool :=
  match decode v, _sqrt v with
  | some dv, some s =>
    match decode s with
    | some ds => sqrtErrOK ds dv
    | none => false
  | _, _ => false

/-- A sample of positive normal floats: 1, 2, 3, 4, 0.5, 0.1, 10, 25, 100,
1e6, 1e-6, pi, 2^24, 1e10, the least normal and the greatest finite value,
the values just below 2 and 4, and 32 equally spaced values in each of
[1, 2) and [2, 4). -/
def sqrtSample : List Nat :=
  [0x3f800000, 0x40000000, 0x40400000, 0x40800000, 0x3f000000, 0x3dcccccd, 0x41200000,
   0x41c80000, 0x42c80000, 0x49742400, 0x358637bd, 0x40490fdb, 0x4b800000, 0x501502f9,
   0x00800000, 0x7f7fffff, 0x3fffffff, 0x407fffff]
  ++ (List.range 32).map (fun k => 0x3f800000 + k * 2 ^ 18)
  ++ (List.range 32).map (fun k => 0x40000000 + k * 2 ^ 18)

/-! ### The instantiation `Coord<float>`

A component is the bit pattern of a `float`.  The operations are total:
NaN operands give NaN, infinities follow IEEE 754, finite operands are
computed exactly and rounded, and a result beyond the finite range is an
infinity.  The payload and sign of a NaN result are not modelled: every NaN
result is the pattern 0x7fc00000. -/

/-- A NaN pattern. -/
def qNaN : Nat := 0x7fc00000

/-- The pattern is a NaN. -/
def isNaN (b : Nat) : Bool := decide (b / 2 ^ 23 % 256 = 255 ∧ b % 2 ^ 23 ≠ 0)

/-- The pattern is an infinity. -/
def isInf (b : Nat) : Bool := decide (b / 2 ^ 23 % 256 = 255 ∧ b % 2 ^ 23 = 0)

/-- The pattern is +0 or -0. -/
def isZero (b : Nat) : Bool := decide (b % 2 ^ 31 = 0)

/-- The sign bit. -/
def fsign (b : Nat) : Bool := decide (b / 2 ^ 31 % 2 = 1)

/-- The infinity of the given sign. -/
def infBits (neg : Bool) : Nat := (if neg then 2 ^ 31 else 0) + 0x7f800000

/-- The zero of the given sign. -/
def zeroBits (neg : Bool) : Nat := if neg then 2 ^ 31 else 0

/-- Unary minus: the sign bit is flipped. -/
def fneg (b : Nat) : Nat := if fsign b then b - 2 ^ 31 else b + 2 ^ 31

/-- `a == b` on floats: false when an operand is NaN, +0 equals -0. -/
def feq (a b : Nat) : Bool :=
  !isNaN a && !isNaN b && (decide (a = b) || (isZero a && isZero b))

/-- `x >= 0` on a float: false for NaN, true for -0. -/
def fge0 (x : Nat) : Bool := !isNaN x && (!fsign x || isZero x)

/-- `a * b` on floats. -/
def fmulT (a b : Nat) : Nat :=
  if isNaN a || isNaN b then qNaN
  else if isInf a || isInf b then
    if isZero a || isZero b then qNaN else infBits (xor (fsign a) (fsign b))
  else
    match fmul a b with
    | some r => r
    | none => infBits (xor (fsign a) (fsign b))

/-- `a - b` on floats. -/
def fsubT (a b : Nat) : Nat :=
  if isNaN a || isNaN b then qNaN
  else if isInf a then
    if isInf b && (fsign a == fsign b) then qNaN else a
  else if isInf b then fneg b
  else
    match fsub a b with
    | some r => r
    | none => infBits (fsign a)

/-- `a + b` on floats, the difference of `a` and `-b`. -/
def faddT (a b : Nat) : Nat := fsubT a (fneg b)

/-- `a / b` on floats: the quotient is computed with 64 extra bits and a
sticky bit before rounding. -/
def fdivT (a b : Nat) : Nat :=
  if isNaN a || isNaN b then qNaN
  else if isInf a then
    if isInf b then qNaN else infBits (xor (fsign a) (fsign b))
  else if isInf b then zeroBits (xor (fsign a) (fsign b))
  else if isZero b then
    if isZero a then qNaN else infBits (xor (fsign a) (fsign b))
  else
    match decode a, decode b with
    | some x, some y =>
      let q := x.n * 2 ^ 64 / y.n
      let sticky := if x.n * 2 ^ 64 % y.n = 0 then 0 else 1
      match encode ⟨xor x.neg y.neg, 2 * q + sticky, x.e - y.e - 65⟩ with
      | some r => r
      | none => infBits (xor x.neg y.neg)
    | _, _ => qNaN

/-- The class `Coord<float>`: two components, as bit patterns. -/
structure FCoord where
  x : Nat
  y : Nat
  deriving DecidableEq, Repr

/-- `check` for `Coord<float>`. -/
def checkF (A B : FCoord) : Bool := feq A.x B.x && feq A.y B.y

/-- `operator-` for `Coord<float>`. -/
def subF (A B : FCoord) : FCoord := ⟨fsubT A.x B.x, fsubT A.y B.y⟩

/-- `absolute` for `float`: `(x >= 0) ? x : -x`. -/
def absoluteF (x : Nat) : Nat := if fge0 x then x else fneg x

/-- The value `dx*dx + dy*dy` of `Dist` for `Coord<float>`. -/
def radicandF (A B : FCoord) : Nat :=
  let dx := (subF A B).x
  let dy := (subF A B).y
  faddT (fmulT dx dx) (fmulT dy dy)

/-- `Slope` for `Coord<float>`: the `float` converted to the `double` returned
(0 is the float +0, 0x40000000 is 2.0f) and the lines written. -/
def SlopeF (A B : FCoord) : Nat × List String :=
  let dx := (subF A B).x
  let dy := (subF A B).y
  if feq dx 0 then (0, [slopeMsg])
  else (fdivT dy dx, [])

/-- `Tri_Area` for `Coord<float>`: the `float` converted to the `double`
returned. -/
def Tri_AreaF (A B C : FCoord) : Nat :=
  if checkF A B || checkF A C || checkF B C then 0
  else absoluteF (fdivT (faddT (faddT (fmulT A.x (subF B C).y) (fmulT B.x (subF C A).y))
    (fmulT C.x (subF A B).y)) 0x40000000)

/-! ## Shared lemmas -/

@[simp] theorem conv_exact (v : Int) : NumTy.exact.conv v = v := rfl

@[simp] theorem arith_exact (v : Int) : NumTy.exact.arith v = v := rfl

theorem absolute_exact (v : Int) : absolute .exact v = |v| := by
  unfold absolute
  simp only [conv_exact, arith_exact]
  split
  · rename_i h; exact (abs_of_nonneg h).symm
  · rename_i h; exact (abs_of_neg (not_le.mp h)).symm

theorem check_iff (A B : Coord) : check A B = true ↔ A = B := by
  cases A; cases B
  simp [check]

theorem check_comm (A B : Coord) : check A B = check B A := by
  cases A; cases B
  simp only [check, eq_comm]

theorem shoelace_exact (A B C : Coord) : shoelace .exact A B C = shoelaceZ A B C := by
  simp [shoelace, shoelaceZ, sub]

/-- Integers of magnitude at most 2^53 are converted exactly. -/
theorem toDouble_of_le (v : Int) (h : |v| ≤ 2 ^ 53) : toDouble v = v := by
  unfold toDouble
  have hn : v.natAbs ≤ 2 ^ 53 := by
    have : ((v.natAbs : Nat) : Int) ≤ 2 ^ 53 := by rw [← Int.abs_eq_natAbs]; exact h
    exact_mod_cast this
  simp only [hn, if_true]

/-- The conversion keeps non-negative values non-negative. -/
theorem toDouble_nonneg (v : Int) (h : 0 ≤ v) : 0 ≤ toDouble v := by
  unfold toDouble
  simp only
  split
  · exact h
  · rw [if_neg (not_lt.mpr h)]
    positivity

/-- Over the integers `Tri_Area` is the guarded `|S / 2|` as a `double`. -/
theorem Tri_Area_exact (A B C : Coord) :
    Tri_Area .exact A B C =
      if check A B || check A C || check B C then 0
      else toDouble |Int.tdiv (shoelaceZ A B C) 2| := by
  unfold Tri_Area
  rw [absolute_exact, arith_exact, shoelace_exact]

/-- Without overflow the machine evaluation of `Tri_Area` is the one over the
integers. -/
theorem Tri_Area_of_noOverflow (t : NumTy) (A B C : Coord) (h : TriNoOverflow t A B C) :
    Tri_Area t A B C = Tri_Area .exact A B C := by
  obtain ⟨⟨⟨a1, c1⟩, ⟨a2, c2⟩, ⟨a3, c3⟩⟩, ⟨p1, p2, p3⟩, ⟨s1, s2⟩, ⟨ah, ch⟩, ⟨an, cn⟩⟩ := h
  unfold NumTy.inP at p1 p2 p3 s1 s2
  unfold shoelaceZ at s2
  have hs : shoelace t A B C = shoelaceZ A B C := by
    unfold shoelace sub shoelaceZ
    simp only [a1, c1, a2, c2, a3, c3, p1, p2, p3, s1, s2]
  rw [Tri_Area_exact]
  unfold Tri_Area
  rw [hs]
  split
  · rfl
  · congr 1
    unfold absolute
    simp only [ah, ch]
    split
    · rename_i h0; rw [ch, abs_of_nonneg h0]
    · rename_i h0
      rw [abs_of_neg (not_le.mp h0)] at an cn
      rw [an, cn, abs_of_neg (not_le.mp h0)]

theorem shoelaceZ_swap12 (A B C : Coord) : shoelaceZ B A C = -shoelaceZ A B C := by
  unfold shoelaceZ; ring

theorem shoelaceZ_swap23 (A B C : Coord) : shoelaceZ A C B = -shoelaceZ A B C := by
  unfold shoelaceZ; ring

theorem abs_tdiv_neg (s : Int) : |Int.tdiv (-s) 2| = |Int.tdiv s 2| := by
  rw [Int.neg_tdiv, abs_neg]

theorem Tri_Area_exact_swap12 (A B C : Coord) :
    Tri_Area .exact B A C = Tri_Area .exact A B C := by
  rw [Tri_Area_exact, Tri_Area_exact, shoelaceZ_swap12, abs_tdiv_neg, check_comm B A]
  cases check A B <;> cases check A C <;> cases check B C <;> rfl

theorem Tri_Area_exact_swap23 (A B C : Coord) :
    Tri_Area .exact A C B = Tri_Area .exact A B C := by
  rw [Tri_Area_exact, Tri_Area_exact, shoelaceZ_swap23, abs_tdiv_neg, check_comm C B]
  cases check A B <;> cases check A C <;> cases check B C <;> rfl

/-- For components of type `T`, the stored difference is 0 exactly when the
components are equal, wrap-around included. -/
theorem conv_sub_eq_zero_iff (t : NumTy) (a b : Int) (ha : t.conv a = a) (hb : t.conv b = b) :
    t.conv (t.arith (a - b)) = 0 ↔ a = b := by
  cases t with
  | exact => simp only [conv_exact, arith_exact]; omega
  | sint w =>
    cases w <;>
    simp only [NumTy.conv, NumTy.arith, NumTy.promote, wrapS, Width.bits] at ha hb ⊢ <;>
    norm_num at ha hb ⊢ <;> omega
  | uint w =>
    cases w <;>
    simp only [NumTy.conv, NumTy.arith, NumTy.promote, wrapS, wrapU, Width.bits] at ha hb ⊢ <;>
    norm_num at ha hb ⊢ <;> omega

/-- When its argument and its absolute value are representable,
`absolute` returns the absolute value. -/
theorem absolute_of_inT (t : NumTy) (v : Int) (hv : t.inT v) (ha : t.inT |v|) :
    absolute t v = |v| := by
  obtain ⟨_, cv⟩ := hv
  obtain ⟨aa, ca⟩ := ha
  unfold absolute
  simp only [cv]
  split
  · rename_i h0; rw [cv, abs_of_nonneg h0]
  · rename_i h0
    rw [abs_of_neg (not_le.mp h0)] at aa ca
    rw [aa, ca, abs_of_neg (not_le.mp h0)]

theorem radicand_of_noOverflow (t : NumTy) (A B : Coord) (h : DistNoOverflow t A B) :
    radicand t A B = (A.x - B.x) * (A.x - B.x) + (A.y - B.y) * (A.y - B.y) := by
  obtain ⟨⟨⟨ax, cx⟩, ⟨ay, cy⟩⟩, ⟨px, py, ps⟩, _⟩ := h
  unfold NumTy.inP at px py ps
  unfold radicand sub
  simp only [ax, cx, ay, cy, px, py, ps]

theorem Man_Dist_of_noOverflow (t : NumTy) (A B : Coord) (h : DistNoOverflow t A B) :
    Man_Dist t A B = |A.x - B.x| + |A.y - B.y| := by
  obtain ⟨⟨hx, hy⟩, _, ⟨hax, hay, hs⟩⟩ := h
  unfold NumTy.inP at hs
  unfold Man_Dist sub
  simp only [hx.1, hx.2, hy.1, hy.2, absolute_of_inT t _ hx hax, absolute_of_inT t _ hy hay, hs]

theorem sqrt_sq_int (n : Int) (r : ℝ) (hr : 0 ≤ r) (h : (n : ℝ) = r * r) :
    Real.sqrt (n : ℝ) = r := by
  rw [h]
  exact Real.sqrt_mul_self hr

/-- Truncating division divides the magnitudes. -/
theorem abs_tdiv (a b : Int) : |Int.tdiv a b| = |a| / |b| := by
  rw [Int.abs_eq_natAbs, Int.abs_eq_natAbs, Int.abs_eq_natAbs, Int.natAbs_tdiv]
  rfl

/-- The truncated quotient is 0 or has the sign of the real quotient. -/
theorem tdiv_sign (a b : Int) : 0 ≤ Int.tdiv a b * (a * b) := by
  rcases le_or_lt 0 a with ha | ha <;> rcases le_or_lt 0 b with hb | hb
  · rw [Int.tdiv_eq_ediv ha hb]
    exact mul_nonneg (Int.ediv_nonneg ha hb) (mul_nonneg ha hb)
  · have e : b = -(-b) := by ring
    rw [e, Int.tdiv_neg, Int.tdiv_eq_ediv ha (by omega)]
    have h1 : 0 ≤ a / (-b) := Int.ediv_nonneg ha (by omega)
    have h2 : 0 ≤ a * (-b) := mul_nonneg ha (by omega)
    nlinarith
  · have e : a = -(-a) := by ring
    rw [e, Int.neg_tdiv, Int.tdiv_eq_ediv (by omega) hb]
    have h1 : 0 ≤ (-a) / b := Int.ediv_nonneg (by omega) hb
    have h2 : 0 ≤ (-a) * b := mul_nonneg (by omega) hb
    nlinarith
  · have e : a = -(-a) := by ring
    have e2 : b = -(-b) := by ring
    rw [e, e2, Int.neg_tdiv_neg, Int.tdiv_eq_ediv (by omega) (by omega)]
    have h1 : 0 ≤ (-a) / (-b) := Int.ediv_nonneg (by omega) (by omega)
    have h2 : 0 ≤ (-a) * (-b) := mul_nonneg (by omega) (by omega)
    nlinarith

/-- Halving with truncation, in terms of floor division. -/
theorem tdiv_two_eq (s : Int) : Int.tdiv s 2 = if 0 ≤ s then s / 2 else -((-s) / 2) := by
  split
  · rename_i h; exact Int.tdiv_eq_ediv h (by norm_num)
  · rename_i h
    have e : s = -(-s) := by ring
    conv_lhs => rw [e]
    rw [Int.neg_tdiv, Int.tdiv_eq_ediv (by omega) (by norm_num)]

/-- A division whose quotient is representable in the promoted type does not
overflow. -/
theorem divOverflows_of_inP (t : NumTy) (dy dx : Int)
    (h : t.arith (Int.tdiv dy dx) = Int.tdiv dy dx) : t.divOverflows dy dx = false := by
  unfold NumTy.divOverflows
  unfold NumTy.arith at h
  cases hp : t.promote with
  | exact => rfl
  | uint w => rfl
  | sint w =>
    simp only [decide_eq_false_iff_not]
    rintro ⟨hy, hx⟩
    rw [hp, hy, hx, Int.neg_tdiv_neg, Int.tdiv_one] at h
    cases w <;> simp only [NumTy.conv, wrapS, Width.bits] at h <;> norm_num at h

/-- Without overflow and for different x components, `Slope` is the truncated
quotient of the differences as a `double` and writes nothing. -/
theorem Slope_of_noOverflow (t : NumTy) (A B : Coord) (h : SlopeNoOverflow t A B)
    (hx : A.x ≠ B.x) :
    Slope t A B = some (toDouble (Int.tdiv (A.y - B.y) (A.x - B.x)), []) := by
  obtain ⟨⟨ax, cx⟩, ⟨ay, cy⟩, hq⟩ := h
  unfold NumTy.inP at hq
  unfold Slope sub
  simp only [ax, cx, ay, cy, hq]
  rw [if_neg (sub_ne_zero.mpr hx), divOverflows_of_inP t _ _ hq]
  simp

/-- The truncated quotient is `|a| / |b|` with the sign of the ratio. -/
theorem tdiv_cases (a b : Int) :
    ∃ e : Int, 0 ≤ e ∧ e ≤ |a| ∧ (|b| = 1 → e = |a|) ∧ (2 ≤ |b| → 2 * e ≤ |a|) ∧
      Int.tdiv a b = (if (0 ≤ a ∧ 0 ≤ b) ∨ (a < 0 ∧ b < 0) then e else -e) := by
  refine ⟨|a| / |b|, Int.ediv_nonneg (abs_nonneg a) (abs_nonneg b),
    Int.ediv_le_self _ (abs_nonneg a), ?_, ?_, ?_⟩
  · intro h1; rw [h1, Int.ediv_one]
  · intro h2
    have hle : |a| / |b| * |b| ≤ |a| := Int.ediv_mul_le _ (by omega)
    nlinarith [Int.ediv_nonneg (abs_nonneg a) (abs_nonneg b)]
  · rcases le_or_lt 0 a with ha | ha <;> rcases le_or_lt 0 b with hb | hb
    · rw [if_pos (Or.inl ⟨ha, hb⟩), abs_of_nonneg ha, abs_of_nonneg hb,
        Int.tdiv_eq_ediv ha hb]
    · rw [if_neg (by omega), abs_of_nonneg ha, abs_of_neg hb]
      have e : b = -(-b) := by ring
      conv_lhs => rw [e]
      rw [Int.tdiv_neg, Int.tdiv_eq_ediv ha (by omega)]
    · rw [if_neg (by omega), abs_of_neg ha, abs_of_nonneg hb]
      have e : a = -(-a) := by ring
      conv_lhs => rw [e]
      rw [Int.neg_tdiv, Int.tdiv_eq_ediv (by omega) hb]
    · rw [if_pos (Or.inr ⟨ha, hb⟩), abs_of_neg ha, abs_of_neg hb]
      have e : a = -(-a) := by ring
      have e2 : b = -(-b) := by ring
      conv_lhs => rw [e, e2]
      rw [Int.neg_tdiv_neg, Int.tdiv_eq_ediv (by omega) (by omega)]

/-- For operands of type `T` the quotient is representable in the promoted
type unless the division overflows. -/
theorem arith_tdiv (t : NumTy) (dy dx : Int) (hy : t.conv dy = dy) (hx : t.conv dx = dx)
    (hov : t.divOverflows dy dx = false) :
    t.arith (Int.tdiv dy dx) = Int.tdiv dy dx := by
  obtain ⟨e, he0, hey, he1, he2, hq⟩ := tdiv_cases dy dx
  rw [hq]
  clear hq
  cases t with
  | exact => rfl
  | sint w =>
    cases w <;>
    simp only [NumTy.divOverflows, NumTy.conv, NumTy.arith, NumTy.promote, wrapS, Width.bits,
      decide_eq_false_iff_not] at hy hx hov ⊢ <;>
    norm_num at hy hx hov ⊢ <;>
    rcases abs_cases dy with ⟨e1, _⟩ | ⟨e1, _⟩ <;>
    rcases abs_cases dx with ⟨e2, _⟩ | ⟨e2, _⟩ <;>
    rw [e1] at hey he1 he2 <;> rw [e2] at he1 he2 <;>
    split_ifs <;> omega
  | uint w =>
    cases w <;>
    simp only [NumTy.conv, NumTy.arith, NumTy.promote, wrapS, wrapU, Width.bits]
      at hy hx ⊢ <;>
    norm_num at hy hx ⊢ <;>
    rcases abs_cases dy with ⟨e1, _⟩ | ⟨e1, _⟩ <;>
    rw [e1] at hey <;>
    split_ifs <;> omega

/-- A stored value is unchanged by a second store. -/
theorem conv_conv (t : NumTy) (v : Int) : t.conv (t.conv v) = t.conv v := by
  cases t with
  | exact => rfl
  | sint w =>
    cases w <;> simp only [NumTy.conv, wrapS, Width.bits] <;> norm_num
  | uint w =>
    cases w <;> simp only [NumTy.conv, wrapU, Width.bits] <;> norm_num

/-- Every result of 32-bit signed arithmetic lies in the range of `int`. -/
theorem arith_int32_range (v : Int) :
    -2 ^ 31 ≤ (NumTy.sint .w32).arith v ∧ (NumTy.sint .w32).arith v < 2 ^ 31 := by
  simp only [NumTy.arith, NumTy.promote, NumTy.conv, wrapS, Width.bits]
  norm_num
  omega

/-- From the squared bounds to the relative error of the square root. -/
theorem rel_err_of_sq (σ ν : ℝ) (hσ : 0 ≤ σ) (h1 : 998001 * ν < 1000000 * σ ^ 2)
    (h2 : 1000000 * σ ^ 2 < 1002001 * ν) :
    |σ - Real.sqrt ν| / Real.sqrt ν < 1e-3 := by
  have hν : 0 < ν := by nlinarith [sq_nonneg σ]
  have hr : 0 < Real.sqrt ν := Real.sqrt_pos.mpr hν
  have hrr : Real.sqrt ν ^ 2 = ν := Real.sq_sqrt hν.le
  rw [div_lt_iff₀ hr, abs_lt]
  constructor
  · nlinarith
  · nlinarith

/-- The integer test `sqrtErrOK` bounds the relative error against the real
square root. -/
theorem sqrtErrOK_sound (s v : Dyadic) (h : sqrtErrOK s v = true) :
    v.neg = false ∧ 0 < v.n ∧
    |((s.val : ℚ) : ℝ) - Real.sqrt ((v.val : ℚ) : ℝ)| / Real.sqrt ((v.val : ℚ) : ℝ) < 1e-3 := by
  unfold sqrtErrOK at h
  simp only [Bool.and_eq_true, Bool.not_eq_true', decide_eq_true_eq] at h
  obtain ⟨⟨⟨⟨hs, hv⟩, hpos⟩, h1⟩, h2⟩ := h
  refine ⟨hv, hpos, ?_⟩
  generalize he0 : min (2 * s.e) v.e = e0 at h1 h2
  have hse : 2 * s.e = e0 + ((2 * s.e - e0).toNat : Int) := by
    rw [Int.toNat_of_nonneg (by omega)]; ring
  have hve : v.e = e0 + ((v.e - e0).toNat : Int) := by
    rw [Int.toNat_of_nonneg (by omega)]; ring
  generalize (2 * s.e - e0).toNat = k at h1 h2 hse
  generalize (v.e - e0).toNat = l at h1 h2 hve
  have hp : (0 : ℝ) < 2 ^ e0 := zpow_pos (by norm_num) e0
  have hσ : ((s.val : ℚ) : ℝ) = (s.n : ℝ) * 2 ^ s.e := by
    simp [Dyadic.val, hs]
  have hν : ((v.val : ℚ) : ℝ) = (v.n : ℝ) * 2 ^ v.e := by
    simp [Dyadic.val, hv]
  have hσ2 : 1000000 * ((s.val : ℚ) : ℝ) ^ 2 =
      ((1000000 * (s.n * s.n) * 2 ^ k : Nat) : ℝ) * 2 ^ e0 := by
    rw [hσ]
    have : ((2 : ℝ) ^ s.e) ^ 2 = 2 ^ (2 * s.e) := by
      rw [← zpow_natCast, ← zpow_mul]; congr 1; ring
    rw [mul_pow, this, hse, zpow_add₀ (by norm_num), zpow_natCast]
    push_cast
    ring
  have hν2 : ((v.val : ℚ) : ℝ) = ((v.n * 2 ^ l : Nat) : ℝ) * 2 ^ e0 := by
    rw [hν, hve, zpow_add₀ (by norm_num), zpow_natCast]
    push_cast
    ring
  have h1r : (998001 : ℝ) * ((v.n * 2 ^ l : Nat) : ℝ)
      < ((1000000 * (s.n * s.n) * 2 ^ k : Nat) : ℝ) := by
    exact_mod_cast h1
  have h2r : ((1000000 * (s.n * s.n) * 2 ^ k : Nat) : ℝ)
      < (1002001 : ℝ) * ((v.n * 2 ^ l : Nat) : ℝ) := by
    exact_mod_cast h2
  apply rel_err_of_sq
  · rw [hσ]; positivity
  · rw [hσ2, hν2]; nlinarith
  · rw [hσ2, hν2]; nlinarith

/-- A bit pattern that passes `fastSqrtOK` is a positive finite float whose
fast square root is finite and within 1e-3 of the real square root. -/
theorem fastSqrtOK_sound (v : Nat) (h : fastSqrtOK v = true) :
    ∃ dv s ds, decode v = some dv ∧ dv.neg = false ∧ 0 < dv.n ∧
      _sqrt v = some s ∧ decode s = some ds ∧
      |((ds.val : ℚ) : ℝ) - Real.sqrt ((dv.val : ℚ) : ℝ)| / Real.sqrt ((dv.val : ℚ) : ℝ)
        < 1e-3 := by
  unfold fastSqrtOK at h
  split at h
  · rename_i dv s h1 h2
    split at h
    · rename_i ds h3
      obtain ⟨a, b, c⟩ := sqrtErrOK_sound ds dv h
      exact ⟨dv, s, ds, h1, a, b, h2, h3, c⟩
    · exact absurd h (by decide)
  · exact absurd h (by decide)

set_option maxRecDepth 100000 in
/-- Every float of the sample passes the test. -/
theorem sqrtSample_ok : ∀ v ∈ sqrtSample, fastSqrtOK v = true := by decide!

/-- One refinement step at the estimate `(1 + d)/s` of `1/s`, for `v = s*s`. -/
theorem newtonStep_sq (s d : ℝ) (hs : 0 < s) :
    newtonStep (0.5 * (s * s)) ((1 + d) / s) = (1 + (-(1.5 * d ^ 2) - 0.5 * d ^ 3)) / s := by
  unfold newtonStep
  field_simp
  ring

/-- One refinement step maps the relative error `d` to `-1.5 d^2 - 0.5 d^3`. -/
theorem newtonStep_err (v : ℝ) (hv : 0 < v) (d : ℝ) :
    newtonStep (0.5 * v) ((1 + d) / Real.sqrt v)
      = (1 + (-(1.5 * d ^ 2) - 0.5 * d ^ 3)) / Real.sqrt v := by
  have hs : 0 < Real.sqrt v := Real.sqrt_pos.mpr hv
  have hss : v = Real.sqrt v * Real.sqrt v := (Real.mul_self_sqrt hv.le).symm
  have := newtonStep_sq (Real.sqrt v) d hs
  rw [← hss] at this
  exact this

/-- The error after a step is bounded by the same polynomial of the bound. -/
theorem newton_err_bound (d b : ℝ) (hd : |d| ≤ b) :
    |-(1.5 * d ^ 2) - 0.5 * d ^ 3| ≤ 1.5 * b ^ 2 + 0.5 * b ^ 3 := by
  have hb : 0 ≤ b := le_trans (abs_nonneg d) hd
  have h2 : d ^ 2 ≤ b ^ 2 := by
    have := abs_nonneg d
    nlinarith [sq_abs d]
  have h3 : |d ^ 3| ≤ b ^ 3 := by
    rw [abs_pow]
    exact pow_le_pow_left₀ (abs_nonneg d) hd 3
  have h4 := abs_le.mp h3
  rw [abs_le]
  constructor <;> nlinarith [sq_nonneg d]

/-- Zero is kept by every conversion and every arithmetic result. -/
theorem conv_arith_zero (t : NumTy) : t.conv 0 = 0 ∧ t.arith 0 = 0 := by
  cases t with
  | exact => exact ⟨rfl, rfl⟩
  | sint w => cases w <;> exact ⟨by decide, by decide⟩
  | uint w => cases w <;> exact ⟨by decide, by decide⟩

/-- A pattern with a finite value is neither a NaN nor an infinity. -/
theorem finite_of_decode (a : Nat) (h : decode a ≠ none) :
    isNaN a = false ∧ isInf a = false := by
  have hE : a / 2 ^ 23 % 256 ≠ 255 := by
    intro hE
    apply h
    unfold decode
    simp only [hE, if_true]
  constructor
  · unfold isNaN
    rw [decide_eq_false_iff_not]
    exact fun hc => hE hc.1
  · unfold isInf
    rw [decide_eq_false_iff_not]
    exact fun hc => hE hc.1

/-- A pattern that is not a NaN equals itself. -/
theorem feq_self (a : Nat) (h : isNaN a = false) : feq a a = true := by
  unfold feq
  simp [h]

/-- The difference of a finite float and itself is +0. -/
theorem fsubT_self (a : Nat) (h : decode a ≠ none) : fsubT a a = 0 := by
  obtain ⟨hn, hi⟩ := finite_of_decode a h
  obtain ⟨x, hx⟩ := Option.ne_none_iff_exists'.mp h
  have hs : fsub a a = some 0 := by
    unfold fsub
    simp [hx]
  unfold fsubT
  simp [hn, hi, hs]

/-- The fields of a decoded pattern. -/
theorem decode_fields (a : Nat) (x : Dyadic) (h : decode a = some x) :
    a / 2 ^ 23 % 256 ≠ 255 ∧ x.neg = decide (a / 2 ^ 31 % 2 = 1) ∧
    ((a / 2 ^ 23 % 256 = 0 ∧ x.n = a % 2 ^ 23 ∧ x.e = -149) ∨
     (a / 2 ^ 23 % 256 ≠ 0 ∧ x.n = 2 ^ 23 + a % 2 ^ 23 ∧
       x.e = ((a / 2 ^ 23 % 256 : Nat) : Int) - 150)) := by
  unfold decode at h
  simp only at h
  split at h
  · exact absurd h (by simp)
  · rename_i hE
    split at h
    · rename_i h0
      have := Option.some.inj h
      subst this
      exact ⟨hE, rfl, Or.inl ⟨h0, rfl, rfl⟩⟩
    · rename_i h0
      have := Option.some.inj h
      subst this
      exact ⟨hE, rfl, Or.inr ⟨h0, rfl, rfl⟩⟩

/-- The arithmetic behind `decode_value_inj`, on the fields of the patterns. -/
theorem value_inj_arith (sa sb ma mb nx ny k l : Nat) (ex ey X Y : Int) (bx b_y : Bool)
    (fa1 : (ma : Int) = (ex + 149) * 8388608 + nx) (fa2 : nx < 16777216) (fa3 : -149 ≤ ex)
    (fa4 : -149 < ex → 8388608 ≤ nx)
    (fb1 : (mb : Int) = (ey + 149) * 8388608 + ny) (fb2 : ny < 16777216) (fb3 : -149 ≤ ey)
    (fb4 : -149 < ey → 8388608 ≤ ny)
    (hsa : bx = decide (sa = 1)) (hsb : b_y = decide (sb = 1)) (b1 : sa < 2) (b3 : sb < 2)
    (hkl : (k = 0 ∧ (l : Int) = ey - ex) ∨ (l = 0 ∧ (k : Int) = ex - ey))
    (hZx : 0 ≤ X) (hZy : 0 ≤ Y)
    (hk0 : k = 0 → X = nx) (hk1 : 1 ≤ k → 2 * (nx : Int) ≤ X)
    (hl0 : l = 0 → Y = ny) (hl1 : 1 ≤ l → 2 * (ny : Int) ≤ Y)
    (h : (if bx = true then -1 else 1) * X = (if b_y = true then -1 else 1) * Y) :
    (sa = sb ∧ ma = mb) ∨ (ma = 0 ∧ mb = 0) := by
  have hk01 : k = 0 ∨ 1 ≤ k := by omega
  have hl01 : l = 0 ∨ 1 ≤ l := by omega
  cases bx <;> cases b_y <;>
    simp only [if_true, if_false, Bool.false_eq_true] at h <;>
    simp only [false_eq_decide_iff, true_eq_decide_iff] at hsa hsb <;>
    rcases hk01 with hk' | hk' <;> rcases hl01 with hl' | hl' <;>
    (try have hX := hk0 hk') <;> (try have hX := hk1 hk') <;>
    (try have hY := hl0 hl') <;> (try have hY := hl1 hl') <;>
    clear hk0 hk1 hl0 hl1 <;>
    omega

/-- Patterns of 32 bits with the same finite value are equal or both zero. -/
theorem decode_value_inj (a b : Nat) (x y : Dyadic) (ha : a < 2 ^ 32) (hb : b < 2 ^ 32)
    (hx : decode a = some x) (hy : decode b = some y)
    (h : x.toInt (min x.e y.e) = y.toInt (min x.e y.e)) :
    a = b ∨ (isZero a = true ∧ isZero b = true) := by
  obtain ⟨hEa, hsa, hca⟩ := decode_fields a x hx
  obtain ⟨hEb, hsb, hcb⟩ := decode_fields b y hy
  have fa : ((a % 2 ^ 31 : Nat) : Int) = (x.e + 149) * 8388608 + x.n ∧
      x.n < 16777216 ∧ -149 ≤ x.e ∧ (-149 < x.e → 8388608 ≤ x.n) := by
    rcases hca with ⟨ca1, ca2, ca3⟩ | ⟨ca1, ca2, ca3⟩ <;> omega
  have fb : ((b % 2 ^ 31 : Nat) : Int) = (y.e + 149) * 8388608 + y.n ∧
      y.n < 16777216 ∧ -149 ≤ y.e ∧ (-149 < y.e → 8388608 ≤ y.n) := by
    rcases hcb with ⟨cb1, cb2, cb3⟩ | ⟨cb1, cb2, cb3⟩ <;> omega
  obtain ⟨fa1, fa2, fa3, fa4⟩ := fa
  obtain ⟨fb1, fb2, fb3, fb4⟩ := fb
  unfold Dyadic.toInt at h
  have hkl : ((x.e - min x.e y.e).toNat = 0 ∧ ((y.e - min x.e y.e).toNat : Int) = y.e - x.e) ∨
      ((y.e - min x.e y.e).toNat = 0 ∧ ((x.e - min x.e y.e).toNat : Int) = x.e - y.e) := by
    omega
  generalize (x.e - min x.e y.e).toNat = k at h hkl
  generalize (y.e - min x.e y.e).toNat = l at h hkl
  have hk0 : k = 0 → (x.n : Int) * 2 ^ k = x.n := by
    intro e; rw [e]; ring
  have hl0 : l = 0 → (y.n : Int) * 2 ^ l = y.n := by
    intro e; rw [e]; ring
  have hk1 : 1 ≤ k → 2 * (x.n : Int) ≤ (x.n : Int) * 2 ^ k := by
    intro h1
    have : (2 : Int) ^ 1 ≤ 2 ^ k := pow_le_pow_right₀ (by norm_num) h1
    nlinarith [Int.ofNat_nonneg x.n]
  have hl1 : 1 ≤ l → 2 * (y.n : Int) ≤ (y.n : Int) * 2 ^ l := by
    intro h1
    have : (2 : Int) ^ 1 ≤ 2 ^ l := pow_le_pow_right₀ (by norm_num) h1
    nlinarith [Int.ofNat_nonneg y.n]
  have key := value_inj_arith (a / 2 ^ 31 % 2) (b / 2 ^ 31 % 2) (a % 2 ^ 31) (b % 2 ^ 31)
    x.n y.n k l x.e y.e _ _ x.neg y.neg fa1 fa2 fa3 fa4 fb1 fb2 fb3 fb4 hsa hsb
    (Nat.mod_lt _ (by norm_num)) (Nat.mod_lt _ (by norm_num)) hkl
    (by positivity) (by positivity) hk0 hk1 hl0 hl1 h
  unfold isZero
  simp only [decide_eq_true_eq]
  rcases key with ⟨e1, e2⟩ | ⟨e1, e2⟩
  · left; omega
  · right; exact ⟨e1, e2⟩

/-- The rounded pattern of a nonzero value is neither a zero nor a NaN. -/
theorem encode_nonzero (d : Dyadic) (hn : d.n ≠ 0) (he : -149 ≤ d.e) (r : Nat)
    (h : encode d = some r) : isZero r = false ∧ isNaN r = false := by
  unfold encode at h
  rw [if_neg hn] at h
  simp only at h
  generalize ((log2Fuel 400 d.n : Nat) : Int) = L at h
  generalize hqe : max (L + d.e - 23) (-149) = qe at h
  generalize hq : (if qe ≤ d.e then d.n * 2 ^ (d.e - qe).toNat
    else roundShift d.n (qe - d.e).toNat) = q at h
  have hbits : 1 ≤ (qe + 149).toNat * 2 ^ 23 + q := by
    by_cases hc : qe ≤ d.e
    · rw [if_pos hc] at hq
      have hp : 0 < d.n * 2 ^ (d.e - qe).toNat :=
        Nat.mul_pos (Nat.pos_of_ne_zero hn) (by positivity)
      omega
    · have : 1 ≤ (qe + 149).toNat := by omega
      omega
  generalize (qe + 149).toNat * 2 ^ 23 + q = bits at h hbits
  split at h
  · exact absurd h (by simp)
  · rename_i hlt
    have hr := Option.some.inj h
    subst hr
    unfold isZero isNaN
    simp only [decide_eq_false_iff_not]
    cases d.neg <;> simp only [if_true, if_false, Bool.false_eq_true] <;>
      norm_num at hlt ⊢ <;> constructor <;> omega

/-- For finite floats the difference compares equal to 0 exactly when the
operands compare equal. -/
theorem feq_fsubT_zero (a b : Nat) (ha : a < 2 ^ 32) (hb : b < 2 ^ 32)
    (hx : decode a ≠ none) (hy : decode b ≠ none) :
    feq (fsubT a b) 0 = feq a b := by
  obtain ⟨hna, hia⟩ := finite_of_decode a hx
  obtain ⟨hnb, hib⟩ := finite_of_decode b hy
  obtain ⟨x, hx⟩ := Option.ne_none_iff_exists'.mp hx
  obtain ⟨y, hy⟩ := Option.ne_none_iff_exists'.mp hy
  obtain ⟨_, _, hca⟩ := decode_fields a x hx
  obtain ⟨_, _, hcb⟩ := decode_fields b y hy
  have hsub : fsubT a b = match fsub a b with
      | some r => r
      | none => infBits (fsign a) := by
    unfold fsubT
    simp [hna, hnb, hia, hib]
  have hf : fsub a b =
      if x.toInt (min x.e y.e) - y.toInt (min x.e y.e) = 0
      then some (if x.neg ∧ ¬ y.neg then 2 ^ 31 else 0)
      else encode ⟨decide (x.toInt (min x.e y.e) - y.toInt (min x.e y.e) < 0),
        (x.toInt (min x.e y.e) - y.toInt (min x.e y.e)).natAbs, min x.e y.e⟩ := by
    unfold fsub
    simp [hx, hy]
  by_cases hm : x.toInt (min x.e y.e) - y.toInt (min x.e y.e) = 0
  · rw [if_pos hm] at hf
    have hv := decode_value_inj a b x y ha hb hx hy (sub_eq_zero.mp hm)
    have h1 : feq (fsubT a b) 0 = true := by
      rw [hsub, hf]
      by_cases hc : x.neg ∧ ¬ y.neg
      · simp only [hc]; decide
      · simp only [hc]; decide
    have h2 : feq a b = true := by
      unfold feq
      rcases hv with e | ⟨z1, z2⟩
      · simp [hna, hnb, e]
      · simp [hna, hnb, z1, z2]
    rw [h1, h2]
  · rw [if_neg hm] at hf
    have h2 : feq a b = false := by
      unfold feq
      have hne : a ≠ b := by
        intro e
        subst e
        rw [hx] at hy
        have := Option.some.inj hy
        subst this
        exact hm (sub_self _)
      have hnz : ¬ (isZero a = true ∧ isZero b = true) := by
        rintro ⟨z1, z2⟩
        unfold isZero at z1 z2
        simp only [decide_eq_true_eq] at z1 z2
        have hxn : x.n = 0 := by
          rcases hca with ⟨_, c2, _⟩ | ⟨c1, _, _⟩ <;> omega
        have hyn : y.n = 0 := by
          rcases hcb with ⟨_, c2, _⟩ | ⟨c1, _, _⟩ <;> omega
        apply hm
        unfold Dyadic.toInt
        simp [hxn, hyn]
      simp only [hna, hnb, Bool.not_false, Bool.true_and, Bool.or_eq_false_iff,
        decide_eq_false_iff_not, Bool.and_eq_false_iff]
      refine ⟨hne, ?_⟩
      by_cases z1 : isZero a = true
      · right
        by_contra z2
        exact hnz ⟨z1, by simpa using z2⟩
      · left
        simpa using z1
    have h1 : feq (fsubT a b) 0 = false := by
      rw [hsub, hf]
      cases he : encode ⟨decide (x.toInt (min x.e y.e) - y.toInt (min x.e y.e) < 0),
        (x.toInt (min x.e y.e) - y.toInt (min x.e y.e)).natAbs, min x.e y.e⟩ with
      | none =>
        simp only
        cases fsign a <;> decide
      | some r =>
        simp only
        have hmin : (-149 : Int) ≤ min x.e y.e := by
          rcases hca with ⟨_, _, c3⟩ | ⟨c1, _, c3⟩ <;>
          rcases hcb with ⟨_, _, d3⟩ | ⟨d1, _, d3⟩ <;> omega
        obtain ⟨rz, rn⟩ := encode_nonzero _ (by simpa using hm) hmin r he
        unfold feq
        have hr0 : r ≠ 0 := by
          intro e
          rw [e] at rz
          exact absurd rz (by decide)
        simp [rn, rz, hr0]
    rw [h1, h2]

/-- The digits of `decDigits` are the base-10 digits of `n`: they evaluate to
`n`, each is below 10, there is at least one, and the leading one is not 0
for a positive `n`. -/
theorem decDigits_spec (fuel n : Nat) (h : n < fuel) :
    Nat.ofDigits 10 (decDigits fuel n) = n ∧ (∀ d ∈ decDigits fuel n, d < 10) ∧
    (decDigits fuel n ≠ []) ∧
    (0 < n → ∀ hne : decDigits fuel n ≠ [], (decDigits fuel n).getLast hne ≠ 0) := by
  induction fuel generalizing n with
  | zero => omega
  | succ f ih =>
    unfold decDigits
    split
    · rename_i h10
      refine ⟨by simp [Nat.ofDigits], by simpa using h10, by simp, ?_⟩
      intro hp _
      simp
      omega
    · rename_i h10
      have hlt : n / 10 < f := by omega
      obtain ⟨i1, i2, i3, i4⟩ := ih (n / 10) hlt
      refine ⟨?_, ?_, by simp, ?_⟩
      · rw [Nat.ofDigits_cons, i1]; omega
      · intro d hd
        rcases List.mem_cons.mp hd with e | e
        · omega
        · exact i2 d e
      · intro hp hne
        rw [List.getLast_cons i3]
        exact i4 (by omega) i3

/-! ## Claims -/

/-- C1: when no intermediate product, sum or difference of the six
evaluations overflows, `Tri_Area` returns the same value for all six
orderings of its arguments; the halving is the truncating division by 2,
applied before the absolute value. -/
theorem Tri_Area_perm_invariant (t : NumTy) (A B C : Coord)
    (h1 : TriNoOverflow t A B C) (h2 : TriNoOverflow t B A C)
    (h3 : TriNoOverflow t A C B) (h4 : TriNoOverflow t C B A)
    (h5 : TriNoOverflow t B C A) (h6 : TriNoOverflow t C A B) :
    Tri_Area t A B C = Tri_Area t B A C ∧ Tri_Area t A B C = Tri_Area t A C B ∧
    Tri_Area t A B C = Tri_Area t C B A ∧ Tri_Area t A B C = Tri_Area t B C A ∧
    Tri_Area t A B C = Tri_Area t C A B := by
  rw [Tri_Area_of_noOverflow t A B C h1, Tri_Area_of_noOverflow t B A C h2,
    Tri_Area_of_noOverflow t A C B h3, Tri_Area_of_noOverflow t C B A h4,
    Tri_Area_of_noOverflow t B C A h5, Tri_Area_of_noOverflow t C A B h6]
  have e12 := Tri_Area_exact_swap12 A B C
  have e23 := Tri_Area_exact_swap23 A B C
  have eBCA : Tri_Area .exact B C A = Tri_Area .exact A B C := by
    rw [Tri_Area_exact_swap23 B A C, e12]
  have eCAB : Tri_Area .exact C A B = Tri_Area .exact A B C := by
    rw [Tri_Area_exact_swap12 A C B, e23]
  have eCBA : Tri_Area .exact C B A = Tri_Area .exact A B C := by
    rw [Tri_Area_exact_swap12 B C A, eBCA]
  exact ⟨e12.symm, e23.symm, eCBA.symm, eBCA.symm, eCAB.symm⟩

/-- C1, at the 32-bit signed triangle (1,2), (-3,5), (4,-6): no evaluation
overflows and the six orderings agree. -/
theorem Tri_Area_perm_invariant_witness :
    TriNoOverflow (.sint .w32) ⟨1, 2⟩ ⟨-3, 5⟩ ⟨4, -6⟩ ∧
    (Tri_Area (.sint .w32) ⟨1, 2⟩ ⟨-3, 5⟩ ⟨4, -6⟩ = Tri_Area (.sint .w32) ⟨-3, 5⟩ ⟨1, 2⟩ ⟨4, -6⟩ ∧
     Tri_Area (.sint .w32) ⟨1, 2⟩ ⟨-3, 5⟩ ⟨4, -6⟩ = Tri_Area (.sint .w32) ⟨1, 2⟩ ⟨4, -6⟩ ⟨-3, 5⟩ ∧
     Tri_Area (.sint .w32) ⟨1, 2⟩ ⟨-3, 5⟩ ⟨4, -6⟩ = Tri_Area (.sint .w32) ⟨4, -6⟩ ⟨-3, 5⟩ ⟨1, 2⟩ ∧
     Tri_Area (.sint .w32) ⟨1, 2⟩ ⟨-3, 5⟩ ⟨4, -6⟩ = Tri_Area (.sint .w32) ⟨-3, 5⟩ ⟨4, -6⟩ ⟨1, 2⟩ ∧
     Tri_Area (.sint .w32) ⟨1, 2⟩ ⟨-3, 5⟩ ⟨4, -6⟩ = Tri_Area (.sint .w32) ⟨4, -6⟩ ⟨1, 2⟩ ⟨-3, 5⟩) :=
  ⟨by decide, Tri_Area_perm_invariant (.sint .w32) ⟨1, 2⟩ ⟨-3, 5⟩ ⟨4, -6⟩
    (by decide) (by decide) (by decide) (by decide) (by decide) (by decide)⟩

/-- C2: in the default instantiation `Dist` is not symmetric.  For
A = (0,0), B = (40000,0) the difference A - B wraps to 25536, no square
exceeds the range of `int`, and the radicands of (A, B) and (B, A) are
652087296 and 1600000000, so the exact square root gives 25536 and 40000.
Over the integers (a signed type without overflow) the radicand is the same
in both orders. -/
theorem Dist_uint16_asymmetric :
    Coord.WF (.uint .w16) ⟨0, 0⟩ ∧ Coord.WF (.uint .w16) ⟨40000, 0⟩ ∧
    sub (.uint .w16) ⟨0, 0⟩ ⟨40000, 0⟩ = ⟨25536, 0⟩ ∧
    sub (.uint .w16) ⟨40000, 0⟩ ⟨0, 0⟩ = ⟨40000, 0⟩ ∧
    radicand (.uint .w16) ⟨0, 0⟩ ⟨40000, 0⟩ = 652087296 ∧
    radicand (.uint .w16) ⟨40000, 0⟩ ⟨0, 0⟩ = 1600000000 ∧
    Dist (.uint .w16) (fun r => Real.sqrt (r : ℝ)) ⟨0, 0⟩ ⟨40000, 0⟩ = 25536 ∧
    Dist (.uint .w16) (fun r => Real.sqrt (r : ℝ)) ⟨40000, 0⟩ ⟨0, 0⟩ = 40000 ∧
    (∀ A B : Coord, radicand .exact A B = radicand .exact B A) := by
  have r1 : radicand (.uint .w16) ⟨0, 0⟩ ⟨40000, 0⟩ = 652087296 := by decide
  have r2 : radicand (.uint .w16) ⟨40000, 0⟩ ⟨0, 0⟩ = 1600000000 := by decide
  refine ⟨by decide, by decide, by decide, by decide, r1, r2, ?_, ?_, ?_⟩
  · unfold Dist
    rw [r1]
    exact sqrt_sq_int 652087296 25536 (by norm_num) (by norm_num)
  · unfold Dist
    rw [r2]
    exact sqrt_sq_int 1600000000 40000 (by norm_num) (by norm_num)
  · intro A B
    unfold radicand sub
    simp only [conv_exact, arith_exact]
    ring

/-- C3: in the default instantiation, for A = (0,0) and B = (3,4), A - B is
(65533, 65532), `Man_Dist(A, B)` is 131065 and the squares in `Dist(A, B)`
exceed the range of `int` (the wrapped radicand is -917479); in the other
order `Man_Dist(B, A)` is 7, the radicand is 25 and the exact `Dist(B, A)`
is 5. -/
theorem scenario1_uint16 :
    sub (.uint .w16) ⟨0, 0⟩ ⟨3, 4⟩ = ⟨65533, 65532⟩ ∧
    Man_Dist (.uint .w16) ⟨0, 0⟩ ⟨3, 4⟩ = 131065 ∧
    (2 : Int) ^ 31 - 1 < 65533 * 65533 ∧
    radicand (.uint .w16) ⟨0, 0⟩ ⟨3, 4⟩ = -917479 ∧
    Man_Dist (.uint .w16) ⟨3, 4⟩ ⟨0, 0⟩ = 7 ∧
    radicand (.uint .w16) ⟨3, 4⟩ ⟨0, 0⟩ = 25 ∧
    Dist (.uint .w16) (fun r => Real.sqrt (r : ℝ)) ⟨3, 4⟩ ⟨0, 0⟩ = 5 := by
  have r : radicand (.uint .w16) ⟨3, 4⟩ ⟨0, 0⟩ = 25 := by decide
  refine ⟨by decide, by decide, by decide, by decide, by decide, r, ?_⟩
  unfold Dist
  rw [r]
  exact sqrt_sq_int 25 5 (by norm_num) (by norm_num)

set_option maxRecDepth 100000 in
/-- C4 (counterexample): in `Coord<int>`, for A = (-1, -2^31) and B = (0,0),
dx is -1 and dy is the least `int`; the quotient 2^31 is not representable,
the division overflows and `Slope` returns nothing.  In `Coord<float>`, for
A = (+inf, 0) and B = (+inf, 5), `A.x == B.x` holds but `(A-B).x` is a NaN,
not 0, and `Slope` returns a NaN without writing the line. -/
theorem Slope_undefined_inputs :
    (Coord.WF (.sint .w32) ⟨-1, -2147483648⟩ ∧ Coord.WF (.sint .w32) ⟨0, 0⟩ ∧
      sub (.sint .w32) ⟨-1, -2147483648⟩ ⟨0, 0⟩ = ⟨-1, -2147483648⟩ ∧
      Int.tdiv (-2147483648) (-1) = 2147483648 ∧
      (NumTy.sint .w32).arith 2147483648 ≠ 2147483648 ∧
      Slope (.sint .w32) ⟨-1, -2147483648⟩ ⟨0, 0⟩ = none) ∧
    (feq 0x7f800000 0x7f800000 = true ∧
      isNaN (subF ⟨0x7f800000, 0⟩ ⟨0x7f800000, 0x40a00000⟩).x = true ∧
      feq (subF ⟨0x7f800000, 0⟩ ⟨0x7f800000, 0x40a00000⟩).x 0 = false ∧
      isNaN (SlopeF ⟨0x7f800000, 0⟩ ⟨0x7f800000, 0x40a00000⟩).1 = true ∧
      (SlopeF ⟨0x7f800000, 0⟩ ⟨0x7f800000, 0x40a00000⟩).2 = []) := by
  refine ⟨⟨by decide, by decide, by decide, by decide, by decide, by decide⟩,
    ⟨by decide, by decide, by decide, by decide!, by decide!⟩⟩

/-- C4 (amended): for coordinates of any integer instantiation, `(A-B).x` is
0 exactly when `A.x = B.x`; then `Slope` returns 0 and writes exactly the
line "Undefined slope for vertical line."; otherwise, when the division does
not overflow (it never does in an unsigned instantiation), it writes nothing
and returns the quotient `dy / dx` as a `double`.  `Slope((0,0), (0,5))`
takes the first branch.  In `Coord<float>` with finite `A.x` and `B.x`
likewise: `(A-B).x == 0` exactly when `A.x == B.x`, the first branch returns
0 with the line and the other writes nothing and returns `dy / dx`. -/
theorem Slope_spec (t : NumTy) (A B : Coord) (FA FB : FCoord)
    (hA : Coord.WF t A) (hB : Coord.WF t B)
    (hFA : FA.x < 2 ^ 32 ∧ decode FA.x ≠ none) (hFB : FB.x < 2 ^ 32 ∧ decode FB.x ≠ none) :
    (((sub t A B).x = 0 ↔ A.x = B.x) ∧
      ((sub t A B).x = 0 →
        Slope t A B = some (0, ["Undefined slope for vertical line."])) ∧
      ((sub t A B).x ≠ 0 → t.divOverflows (sub t A B).y (sub t A B).x = false →
        Slope t A B = some (toDouble (Int.tdiv (sub t A B).y (sub t A B).x), [])) ∧
      (∀ w, t = .uint w → t.divOverflows (sub t A B).y (sub t A B).x = false) ∧
      Slope t ⟨0, 0⟩ ⟨0, 5⟩ = some (0, ["Undefined slope for vertical line."])) ∧
    ((feq (subF FA FB).x 0 = true ↔ feq FA.x FB.x = true) ∧
      (feq (subF FA FB).x 0 = true →
        SlopeF FA FB = (0, ["Undefined slope for vertical line."])) ∧
      (feq (subF FA FB).x 0 = false →
        SlopeF FA FB = (fdivT (subF FA FB).y (subF FA FB).x, []))) := by
  refine ⟨⟨conv_sub_eq_zero_iff t A.x B.x hA.1 hB.1, ?_, ?_, ?_, ?_⟩, ⟨?_, ?_, ?_⟩⟩
  · intro h
    unfold Slope
    simp only [h, if_true, slopeMsg]
  · intro h hov
    have hq := arith_tdiv t (sub t A B).y (sub t A B).x (conv_conv t _) (conv_conv t _) hov
    unfold Slope
    simp only [h, if_false, hov, hq]
    simp
  · intro w hw
    subst hw
    cases w <;>
      simp only [NumTy.divOverflows, NumTy.promote, Width.bits, sub, NumTy.conv, wrapU,
        decide_eq_false_iff_not] <;>
      norm_num <;> omega
  · have h0 : (sub t ⟨0, 0⟩ ⟨0, 5⟩).x = 0 := by
      cases t with
      | exact => rfl
      | sint w => cases w <;> decide
      | uint w => cases w <;> decide
    unfold Slope
    simp only [h0, if_true, slopeMsg]
  · have he : feq (subF FA FB).x 0 = feq FA.x FB.x :=
      feq_fsubT_zero FA.x FB.x hFA.1 hFB.1 hFA.2 hFB.2
    rw [he]
  · intro h
    unfold SlopeF
    simp only [h, if_true, slopeMsg]
  · intro h
    unfold SlopeF
    simp only [h, Bool.false_eq_true, if_false]

/-- C4, at the default instantiation (a vertical pair and a pair whose
difference wraps around) and at the `float` points (1.0, 2.0), (1.0, 5.0). -/
theorem Slope_spec_witness :
    Slope (.uint .w16) ⟨7, 1⟩ ⟨7, 9⟩ = some (0, ["Undefined slope for vertical line."]) ∧
    Slope (.uint .w16) ⟨0, 6⟩ ⟨65534, 0⟩ = some (3, []) ∧
    SlopeF ⟨0x3f800000, 0x40000000⟩ ⟨0x3f800000, 0x40a00000⟩
      = (0, ["Undefined slope for vertical line."]) :=
  ⟨(Slope_spec (.uint .w16) ⟨7, 1⟩ ⟨7, 9⟩ ⟨0x3f800000, 0x40000000⟩ ⟨0x3f800000, 0x40a00000⟩
      (by decide) (by decide) ⟨by decide, by decide⟩ ⟨by decide, by decide⟩).1.2.1 (by decide),
   ((Slope_spec (.uint .w16) ⟨0, 6⟩ ⟨65534, 0⟩ ⟨0x3f800000, 0x40000000⟩
      ⟨0x3f800000, 0x40a00000⟩ (by decide) (by decide) ⟨by decide, by decide⟩
      ⟨by decide, by decide⟩).1.2.2.1 (by decide) (by decide)).trans (by decide),
   (Slope_spec (.uint .w16) ⟨7, 1⟩ ⟨7, 9⟩ ⟨0x3f800000, 0x40000000⟩ ⟨0x3f800000, 0x40a00000⟩
      (by decide) (by decide) ⟨by decide, by decide⟩ ⟨by decide, by decide⟩).2.2.1 (by decide)⟩

/-- C5: `Radius` returns 0 and writes exactly the line "Area of the triangle
is 0. Unable to find the radius." if and only if `Tri_Area` is 0, whatever
the square root strategy (the quotient is not formed on that branch); for
the collinear points (0,0), (1,1), (2,2) this happens in the signed and in
the default unsigned 16-bit instantiation. -/
theorem Radius_zero_area {α : Type} [DivisionRing α] (t : NumTy) (sq : Int → α)
    (A B C : Coord) :
    (Radius t sq A B C = (0, ["Area of the triangle is 0. Unable to find the radius."]) ↔
      Tri_Area t A B C = 0) ∧
    Tri_Area .exact ⟨0, 0⟩ ⟨1, 1⟩ ⟨2, 2⟩ = 0 ∧
    Tri_Area (.sint .w32) ⟨0, 0⟩ ⟨1, 1⟩ ⟨2, 2⟩ = 0 ∧
    Tri_Area (.uint .w16) ⟨0, 0⟩ ⟨1, 1⟩ ⟨2, 2⟩ = 0 ∧
    Radius .exact sq ⟨0, 0⟩ ⟨1, 1⟩ ⟨2, 2⟩ =
      (0, ["Area of the triangle is 0. Unable to find the radius."]) ∧
    Radius (.sint .w32) sq ⟨0, 0⟩ ⟨1, 1⟩ ⟨2, 2⟩ =
      (0, ["Area of the triangle is 0. Unable to find the radius."]) ∧
    Radius (.uint .w16) sq ⟨0, 0⟩ ⟨1, 1⟩ ⟨2, 2⟩ =
      (0, ["Area of the triangle is 0. Unable to find the radius."]) := by
  have e1 : Tri_Area .exact ⟨0, 0⟩ ⟨1, 1⟩ ⟨2, 2⟩ = 0 := by decide
  have e2 : Tri_Area (.sint .w32) ⟨0, 0⟩ ⟨1, 1⟩ ⟨2, 2⟩ = 0 := by decide
  have e3 : Tri_Area (.uint .w16) ⟨0, 0⟩ ⟨1, 1⟩ ⟨2, 2⟩ = 0 := by decide
  refine ⟨?_, e1, e2, e3, ?_, ?_, ?_⟩
  · unfold Radius
    by_cases h : Tri_Area t A B C = 0
    · simp only [h, if_true, radiusMsg]
    · simp only [h, if_false, iff_false]
      intro hc
      have := congrArg Prod.snd hc
      simp at this
  · unfold Radius; simp only [e1, if_true, radiusMsg]
  · unfold Radius; simp only [e2, if_true, radiusMsg]
  · unfold Radius; simp only [e3, if_true, radiusMsg]

/-- C7 (counterexample): in `Coord<float>`, for A = (NaN, 0) and B = (0, 0),
`check(A, A)` is false, the guard of `Tri_Area` fails in each of the three
positions, the shoelace expression is evaluated and the result is a NaN, not
0. -/
theorem Tri_Area_float_nan :
    isNaN 0x7fc00000 = true ∧
    checkF ⟨0x7fc00000, 0⟩ ⟨0x7fc00000, 0⟩ = false ∧
    (checkF ⟨0x7fc00000, 0⟩ ⟨0x7fc00000, 0⟩ || checkF ⟨0x7fc00000, 0⟩ ⟨0, 0⟩
      || checkF ⟨0x7fc00000, 0⟩ ⟨0, 0⟩) = false ∧
    isNaN (Tri_AreaF ⟨0x7fc00000, 0⟩ ⟨0x7fc00000, 0⟩ ⟨0, 0⟩) = true ∧
    isNaN (Tri_AreaF ⟨0x7fc00000, 0⟩ ⟨0, 0⟩ ⟨0x7fc00000, 0⟩) = true ∧
    isNaN (Tri_AreaF ⟨0, 0⟩ ⟨0x7fc00000, 0⟩ ⟨0x7fc00000, 0⟩) = true ∧
    Tri_AreaF ⟨0x7fc00000, 0⟩ ⟨0x7fc00000, 0⟩ ⟨0, 0⟩ ≠ 0 := by
  refine ⟨by decide, by decide, by decide, by decide, by decide, by decide, by decide⟩

/-- C7 (amended): in every integer instantiation, and in `Coord<float>` when
the repeated coordinate has no NaN component, `Tri_Area` is 0 whenever two of
its arguments are the same coordinate, in each of the three positions; the
guard is true there, so the first branch returns and the shoelace expression
is not evaluated. -/
theorem Tri_Area_degenerate (t : NumTy) (A B : Coord) (FA FB : FCoord)
    (hF : isNaN FA.x = false ∧ isNaN FA.y = false) :
    ((Tri_Area t A A B = 0 ∧ Tri_Area t A B A = 0 ∧ Tri_Area t B A A = 0) ∧
      (check A A || check A B || check A B) = true ∧
      (check A B || check A A || check B A) = true ∧
      (check B A || check B A || check A A) = true) ∧
    ((Tri_AreaF FA FA FB = 0 ∧ Tri_AreaF FA FB FA = 0 ∧ Tri_AreaF FB FA FA = 0) ∧
      (checkF FA FA || checkF FA FB || checkF FA FB) = true ∧
      (checkF FA FB || checkF FA FA || checkF FB FA) = true ∧
      (checkF FB FA || checkF FB FA || checkF FA FA) = true) := by
  have h : check A A = true := (check_iff A A).mpr rfl
  have hc : checkF FA FA = true := by
    unfold checkF
    rw [feq_self _ hF.1, feq_self _ hF.2]
    rfl
  refine ⟨⟨⟨?_, ?_, ?_⟩, ?_, ?_, ?_⟩, ⟨⟨?_, ?_, ?_⟩, ?_, ?_, ?_⟩⟩
  · unfold Tri_Area; simp [h]
  · unfold Tri_Area; simp [h]
  · unfold Tri_Area; simp [h]
  · simp [h]
  · simp [h]
  · simp [h]
  · unfold Tri_AreaF; simp [hc]
  · unfold Tri_AreaF; simp [hc]
  · unfold Tri_AreaF; simp [hc]
  · simp [hc]
  · simp [hc]
  · simp [hc]

/-- C7, at the `uint16_t` points (7,9), (1,2) and the `float` points
(+inf, 1.0), (2.0, 3.0). -/
theorem Tri_Area_degenerate_witness :
    Tri_Area (.uint .w16) ⟨7, 9⟩ ⟨7, 9⟩ ⟨1, 2⟩ = 0 ∧
    Tri_AreaF ⟨0x7f800000, 0x3f800000⟩ ⟨0x40000000, 0x40400000⟩ ⟨0x7f800000, 0x3f800000⟩ = 0 :=
  ⟨(Tri_Area_degenerate (.uint .w16) ⟨7, 9⟩ ⟨1, 2⟩ ⟨0x7f800000, 0x3f800000⟩
      ⟨0x40000000, 0x40400000⟩ ⟨by decide, by decide⟩).1.1.1,
   (Tri_Area_degenerate (.uint .w16) ⟨7, 9⟩ ⟨1, 2⟩ ⟨0x7f800000, 0x3f800000⟩
      ⟨0x40000000, 0x40400000⟩ ⟨by decide, by decide⟩).2.1.2.1⟩

/-- C6: for A = (0,0), B = (4,0), C = (0,3) in a signed instantiation with
the exact square root, `Tri_Area` is 6, the three distances are 4, 5 and 3,
and `Radius` is 4*5*3/4/6 = 2.5 with nothing written. -/
theorem scenario4_signed (t : NumTy) (ht : t.isSigned = true) :
    Tri_Area t ⟨0, 0⟩ ⟨4, 0⟩ ⟨0, 3⟩ = 6 ∧
    Dist t (fun r => Real.sqrt (r : ℝ)) ⟨0, 0⟩ ⟨4, 0⟩ = 4 ∧
    Dist t (fun r => Real.sqrt (r : ℝ)) ⟨4, 0⟩ ⟨0, 3⟩ = 5 ∧
    Dist t (fun r => Real.sqrt (r : ℝ)) ⟨0, 3⟩ ⟨0, 0⟩ = 3 ∧
    Radius t (fun r => Real.sqrt (r : ℝ)) ⟨0, 0⟩ ⟨4, 0⟩ ⟨0, 3⟩ = (5 / 2, []) := by
  have hT : Tri_Area t ⟨0, 0⟩ ⟨4, 0⟩ ⟨0, 3⟩ = 6 := by
    cases t with
    | exact => decide
    | sint w => cases w <;> decide
    | uint w => simp [NumTy.isSigned] at ht
  have r1 : radicand t ⟨0, 0⟩ ⟨4, 0⟩ = 16 := by
    cases t with
    | exact => decide
    | sint w => cases w <;> decide
    | uint w => simp [NumTy.isSigned] at ht
  have r2 : radicand t ⟨4, 0⟩ ⟨0, 3⟩ = 25 := by
    cases t with
    | exact => decide
    | sint w => cases w <;> decide
    | uint w => simp [NumTy.isSigned] at ht
  have r3 : radicand t ⟨0, 3⟩ ⟨0, 0⟩ = 9 := by
    cases t with
    | exact => decide
    | sint w => cases w <;> decide
    | uint w => simp [NumTy.isSigned] at ht
  have d1 : Dist t (fun r => Real.sqrt (r : ℝ)) ⟨0, 0⟩ ⟨4, 0⟩ = 4 := by
    unfold Dist; rw [r1]; exact sqrt_sq_int 16 4 (by norm_num) (by norm_num)
  have d2 : Dist t (fun r => Real.sqrt (r : ℝ)) ⟨4, 0⟩ ⟨0, 3⟩ = 5 := by
    unfold Dist; rw [r2]; exact sqrt_sq_int 25 5 (by norm_num) (by norm_num)
  have d3 : Dist t (fun r => Real.sqrt (r : ℝ)) ⟨0, 3⟩ ⟨0, 0⟩ = 3 := by
    unfold Dist; rw [r3]; exact sqrt_sq_int 9 3 (by norm_num) (by norm_num)
  refine ⟨hT, d1, d2, d3, ?_⟩
  unfold Radius
  simp only [hT, d1, d2, d3]
  norm_num

/-- C6, at the 32-bit signed instantiation. -/
theorem scenario4_signed_witness :
    Tri_Area (.sint .w32) ⟨0, 0⟩ ⟨4, 0⟩ ⟨0, 3⟩ = 6 ∧
    Radius (.sint .w32) (fun r => Real.sqrt (r : ℝ)) ⟨0, 0⟩ ⟨4, 0⟩ ⟨0, 3⟩ = (5 / 2, []) :=
  ⟨(scenario4_signed (.sint .w32) rfl).1, (scenario4_signed (.sint .w32) rfl).2.2.2.2⟩

/-- C8: when no difference, square or sum overflows, `Man_Dist(A, B)` is
`|dx| + |dy|`, the radicand of `Dist(A, B)` is `dx*dx + dy*dy`, the square
of the former is at least the latter, and so `Man_Dist(A, B)` is at least
the exact `Dist(A, B)`; this holds for components of either sign. -/
theorem Man_Dist_ge_Dist (t : NumTy) (A B : Coord) (h : DistNoOverflow t A B) :
    Man_Dist t A B = |A.x - B.x| + |A.y - B.y| ∧
    radicand t A B = (A.x - B.x) * (A.x - B.x) + (A.y - B.y) * (A.y - B.y) ∧
    radicand t A B ≤ (Man_Dist t A B) ^ 2 ∧
    Dist t (fun r => Real.sqrt (r : ℝ)) A B ≤ ((Man_Dist t A B : Int) : ℝ) := by
  have hm := Man_Dist_of_noOverflow t A B h
  have hr := radicand_of_noOverflow t A B h
  have hsq : radicand t A B ≤ (Man_Dist t A B) ^ 2 := by
    rw [hm, hr]
    have hx := abs_mul_abs_self (A.x - B.x)
    have hy := abs_mul_abs_self (A.y - B.y)
    have hp : 0 ≤ |A.x - B.x| * |A.y - B.y| :=
      mul_nonneg (abs_nonneg _) (abs_nonneg _)
    nlinarith
  refine ⟨hm, hr, hsq, ?_⟩
  unfold Dist
  rw [Real.sqrt_le_left (by rw [hm]; exact_mod_cast add_nonneg (abs_nonneg _) (abs_nonneg _))]
  exact_mod_cast hsq

/-- C8, at the 32-bit signed pair (1,7), (5,2). -/
theorem Man_Dist_ge_Dist_witness :
    DistNoOverflow (.sint .w32) ⟨1, 7⟩ ⟨5, 2⟩ ∧
    Dist (.sint .w32) (fun r => Real.sqrt (r : ℝ)) ⟨1, 7⟩ ⟨5, 2⟩ ≤
      ((Man_Dist (.sint .w32) ⟨1, 7⟩ ⟨5, 2⟩ : Int) : ℝ) :=
  ⟨by decide, (Man_Dist_ge_Dist (.sint .w32) ⟨1, 7⟩ ⟨5, 2⟩ (by decide)).2.2.2⟩

/-- C10: `check(A, B)` is true if and only if `A.x = B.x` and `A.y = B.y`;
it is reflexive, symmetric and transitive. -/
theorem check_spec (A B C : Coord) :
    (check A B = true ↔ A.x = B.x ∧ A.y = B.y) ∧
    check A A = true ∧
    check A B = check B A ∧
    (check A B = true → check B C = true → check A C = true) := by
  refine ⟨?_, (check_iff A A).mpr rfl, check_comm A B, ?_⟩
  · simp [check]
  · intro h1 h2
    rw [check_iff] at h1 h2 ⊢
    exact h1.trans h2

/-- C10, at (1,2): the transitivity premises hold and the conclusion
follows. -/
theorem check_spec_witness :
    check ⟨1, 2⟩ ⟨1, 2⟩ = true ∧ check ⟨1, 2⟩ ⟨1, 2⟩ = true :=
  ⟨by decide, (check_spec ⟨1, 2⟩ ⟨1, 2⟩ ⟨1, 2⟩).2.2.2 (by decide) (by decide)⟩

/-- C11: for distinct objects A and B, `A += B` leaves B (and every other
object) unchanged, sets A to the coordinate `A + B` and returns the
reference A; chained, `(A += B) += C` leaves A equal to `(A + B) + C`.
Likewise `A -= B` sets A to `A - B`, leaves B unchanged and returns A. -/
theorem assign_ops (t : NumTy) (σ : Store) (A B C : Nat) (hAB : A ≠ B) (hAC : A ≠ C) :
    ((add_assign t σ A B).2 = A ∧
      (add_assign t σ A B).1 A = add t (σ A) (σ B) ∧
      (add_assign t σ A B).1 B = σ B ∧
      (∀ k, k ≠ A → (add_assign t σ A B).1 k = σ k)) ∧
    ((add_assign t (add_assign t σ A B).1 (add_assign t σ A B).2 C).1 A
        = add t (add t (σ A) (σ B)) (σ C) ∧
      (add_assign t (add_assign t σ A B).1 (add_assign t σ A B).2 C).2 = A) ∧
    ((sub_assign t σ A B).2 = A ∧
      (sub_assign t σ A B).1 A = sub t (σ A) (σ B) ∧
      (sub_assign t σ A B).1 B = σ B ∧
      (∀ k, k ≠ A → (sub_assign t σ A B).1 k = σ k)) := by
  have hBA : B ≠ A := fun h => hAB h.symm
  have hCA : C ≠ A := fun h => hAC h.symm
  refine ⟨⟨rfl, ?_, ?_, ?_⟩, ⟨?_, rfl⟩, ⟨rfl, ?_, ?_, ?_⟩⟩
  · simp [add_assign, Store.set, add, hBA]
  · simp [add_assign, Store.set, hBA]
  · intro k hk
    simp [add_assign, Store.set, hk]
  · simp [add_assign, Store.set, add, hBA, hCA]
  · simp [sub_assign, Store.set, sub, hBA]
  · simp [sub_assign, Store.set, hBA]
  · intro k hk
    simp [sub_assign, Store.set, hk]

/-- C11, on a store with (1,2) at address 0, (3,4) at address 1 and (5,6)
elsewhere, in the default instantiation. -/
theorem assign_ops_witness :
    (add_assign (.uint .w16) (fun k => if k = 0 then ⟨1, 2⟩ else if k = 1 then ⟨3, 4⟩ else ⟨5, 6⟩)
      0 1).1 0 = ⟨4, 6⟩ ∧
    (add_assign (.uint .w16) (fun k => if k = 0 then ⟨1, 2⟩ else if k = 1 then ⟨3, 4⟩ else ⟨5, 6⟩)
      0 1).1 1 = ⟨3, 4⟩ :=
  ⟨((assign_ops (.uint .w16)
      (fun k => if k = 0 then ⟨1, 2⟩ else if k = 1 then ⟨3, 4⟩ else ⟨5, 6⟩) 0 1 2
      (by decide) (by decide)).1.2.1).trans (by decide),
   ((assign_ops (.uint .w16)
      (fun k => if k = 0 then ⟨1, 2⟩ else if k = 1 then ⟨3, 4⟩ else ⟨5, 6⟩) 0 1 2
      (by decide) (by decide)).1.2.2.1).trans (by decide)⟩

/-- C13: for a value `v` of type `T`, `absolute(v)` is `v` when `v >= 0` and
the negation `-v` as computed in `T` otherwise, which is `-v` whenever `-v` is
representable (always so over the integers); in the default unsigned 16-bit
instantiation the test `x >= 0` is always true and `absolute(v) = v` for
every `v` in 0..65535. -/
theorem absolute_spec (t : NumTy) (v : Int) (hv : t.conv v = v) :
    (0 ≤ v → absolute t v = v) ∧
    (v < 0 → absolute t v = t.conv (t.arith (-v))) ∧
    (v < 0 → t.inT (-v) → absolute t v = -v) ∧
    (absolute .exact v = if 0 ≤ v then v else -v) ∧
    (∀ u : Int, 0 ≤ (NumTy.uint .w16).conv u) ∧
    (∀ u : Int, 0 ≤ u → u ≤ 65535 → absolute (.uint .w16) u = u) := by
  refine ⟨?_, ?_, ?_, ?_, ?_, ?_⟩
  · intro h
    unfold absolute
    simp only [hv, ge_iff_le, h, if_true]
  · intro h
    unfold absolute
    simp only [hv, ge_iff_le, not_le.mpr h, if_false]
  · intro h hn
    unfold absolute
    simp only [hv, ge_iff_le, not_le.mpr h, if_false, hn.1, hn.2]
  · unfold absolute
    simp only [conv_exact, arith_exact, ge_iff_le]
  · intro u
    simp only [NumTy.conv, wrapU, Width.bits]
    norm_num
    omega
  · intro u h0 h1
    have hc : (NumTy.uint .w16).conv u = u := by
      simp only [NumTy.conv, wrapU, Width.bits]
      norm_num
      omega
    unfold absolute
    simp only [hc, ge_iff_le, h0, if_true]

/-- C13, at -5 in the 32-bit signed instantiation and at 65533 in the
default one. -/
theorem absolute_spec_witness :
    absolute (.sint .w32) (-5) = 5 ∧ absolute (.uint .w16) 65533 = 65533 :=
  ⟨(absolute_spec (.sint .w32) (-5) (by decide)).2.2.1 (by decide) (by decide),
   (absolute_spec (.uint .w16) 65533 (by decide)).2.2.2.2.2 65533 (by decide) (by decide)⟩

/-- C15 (counterexample): in `Coord<int8_t>` the components are characters:
(65, 66) is written as "(A, B)", not as "(65, 66)". -/
theorem write_int8_characters :
    Coord.WF (.sint .w8) ⟨65, 66⟩ ∧
    write (.sint .w8) "" ⟨65, 66⟩ = "(A, B)" ∧
    "(" ++ decimal 65 ++ ", " ++ decimal 66 ++ ")" = "(65, 66)" ∧
    write (.sint .w8) "" ⟨65, 66⟩ ≠ "(" ++ decimal 65 ++ ", " ++ decimal 66 ++ ")" := by
  refine ⟨by decide, by decide, by decide, by decide⟩

/-- C15 (amended): for every coordinate of an integer instantiation other than
the character types `int8_t` and `uint8_t`, writing A to a stream in its
default state appends exactly "(", the decimal rendering of `A.x`, ", "
(comma and one space), the decimal rendering of `A.y`, and ")".  The decimal
rendering is the minus sign of a negative value followed by the base-10
digits of the magnitude, without a leading zero. -/
theorem write_format (t : NumTy) (os : String) (A : Coord)
    (h8 : t ≠ .sint .w8 ∧ t ≠ .uint .w8) :
    write t os A = os ++ ("(" ++ decimal A.x ++ ", " ++ decimal A.y ++ ")") ∧
    (∀ n : Nat,
      Nat.ofDigits 10 (decDigits (n + 1) n) = n ∧ (∀ d ∈ decDigits (n + 1) n, d < 10) ∧
      (0 < n → ∀ hne : decDigits (n + 1) n ≠ [], (decDigits (n + 1) n).getLast hne ≠ 0)) ∧
    write (.uint .w16) "" ⟨3, 4⟩ = "(3, 4)" ∧
    write (.sint .w32) "" ⟨-7, 12⟩ = "(-7, 12)" ∧
    write (.uint .w16) "A = " ⟨65533, 0⟩ = "A = (65533, 0)" := by
  refine ⟨?_, ?_, by decide, by decide, by decide⟩
  · have hp : ∀ v, putT t v = decimal v := by
      intro v
      cases t with
      | exact => rfl
      | sint w =>
        cases w
        · exact absurd rfl h8.1
        · rfl
        · rfl
        · rfl
      | uint w =>
        cases w
        · exact absurd rfl h8.2
        · rfl
        · rfl
        · rfl
    unfold write
    simp only [hp, String.append_assoc]
  · intro n
    obtain ⟨h1, h2, _, h4⟩ := decDigits_spec (n + 1) n (Nat.lt_succ_self n)
    exact ⟨h1, h2, h4⟩

/-- C15, at the default instantiation and the point (65533, 7). -/
theorem write_format_witness :
    write (.uint .w16) "" ⟨65533, 7⟩ = "(65533, 7)" :=
  ((write_format (.uint .w16) "" ⟨65533, 7⟩ ⟨by decide, by decide⟩).1).trans (by decide)

/-- C16: in the 32-bit signed instantiation with wrap-around, the value
passed to `absolute` by `Tri_Area` lies in [-2^30, 2^30 - 1], its negation is
representable, and `Tri_Area(A, B, C)` is non-negative. -/
theorem Tri_Area_int32_nonneg (A B C : Coord) :
    (-2 ^ 30 ≤ (NumTy.sint .w32).arith (Int.tdiv (shoelace (.sint .w32) A B C) 2) ∧
      (NumTy.sint .w32).arith (Int.tdiv (shoelace (.sint .w32) A B C) 2) ≤ 2 ^ 30 - 1) ∧
    (NumTy.sint .w32).inT (-(NumTy.sint .w32).arith (Int.tdiv (shoelace (.sint .w32) A B C) 2)) ∧
    0 ≤ Tri_Area (.sint .w32) A B C := by
  have key : ∀ q : Int, -2 ^ 30 ≤ q → q ≤ 2 ^ 30 - 1 →
      (NumTy.sint .w32).arith q = q ∧ (NumTy.sint .w32).arith (-q) = -q ∧
      0 ≤ absolute (.sint .w32) ((NumTy.sint .w32).arith q) := by
    intro q h1 h2
    have hw : (NumTy.sint .w32).arith q = q := by
      simp only [NumTy.arith, NumTy.promote, NumTy.conv, wrapS, Width.bits]
      norm_num
      omega
    have hc : (NumTy.sint .w32).conv q = q := hw
    have hn : (NumTy.sint .w32).arith (-q) = -q := by
      simp only [NumTy.arith, NumTy.promote, NumTy.conv, wrapS, Width.bits]
      norm_num
      omega
    have hnc : (NumTy.sint .w32).conv (-q) = -q := hn
    refine ⟨hw, hn, ?_⟩
    unfold absolute
    simp only [hw, hc]
    split
    · rw [hc]; assumption
    · rw [hn, hnc]; omega
  have hS : -2 ^ 31 ≤ shoelace (.sint .w32) A B C ∧ shoelace (.sint .w32) A B C < 2 ^ 31 :=
    arith_int32_range _
  have hq : -2 ^ 30 ≤ Int.tdiv (shoelace (.sint .w32) A B C) 2 ∧
      Int.tdiv (shoelace (.sint .w32) A B C) 2 ≤ 2 ^ 30 - 1 := by
    rw [tdiv_two_eq]
    split <;> omega
  obtain ⟨hw, hn, h0⟩ := key _ hq.1 hq.2
  refine ⟨by rw [hw]; exact hq, by rw [hw]; exact ⟨hn, hn⟩, ?_⟩
  unfold Tri_Area
  split
  · exact le_refl 0
  · exact toDouble_nonneg _ h0

/-- C17 (counterexample): in the 64-bit signed instantiation, for
A = (0,0), B = (1,0), C = (0, 2^54 + 2) nothing overflows, the points are
pairwise distinct, S = 2^54 + 2 and `|S| div 2` = 2^53 + 1, but `Tri_Area`
returns the `double` 2^53, and `|S| <= 2*Tri_Area + 1` fails. -/
theorem Tri_Area_int64_rounded :
    TriNoOverflow (.sint .w64) ⟨0, 0⟩ ⟨1, 0⟩ ⟨0, 18014398509481986⟩ ∧
    shoelaceZ ⟨0, 0⟩ ⟨1, 0⟩ ⟨0, 18014398509481986⟩ = 18014398509481986 ∧
    |shoelaceZ ⟨0, 0⟩ ⟨1, 0⟩ ⟨0, 18014398509481986⟩| / 2 = 9007199254740993 ∧
    Tri_Area (.sint .w64) ⟨0, 0⟩ ⟨1, 0⟩ ⟨0, 18014398509481986⟩ = 9007199254740992 ∧
    ¬ (|shoelaceZ ⟨0, 0⟩ ⟨1, 0⟩ ⟨0, 18014398509481986⟩|
        ≤ 2 * Tri_Area (.sint .w64) ⟨0, 0⟩ ⟨1, 0⟩ ⟨0, 18014398509481986⟩ + 1) := by
  have hT : Tri_Area (.sint .w64) ⟨0, 0⟩ ⟨1, 0⟩ ⟨0, 18014398509481986⟩
      = 9007199254740992 := by decide!
  have hS : shoelaceZ ⟨0, 0⟩ ⟨1, 0⟩ ⟨0, 18014398509481986⟩ = 18014398509481986 := by decide
  refine ⟨by decide!, hS, ?_, hT, ?_⟩
  · rw [hS]; decide
  · rw [hS, hT]; decide

/-- C17 (amended): for pairwise distinct A, B, C and without overflow,
`Tri_Area` is the `double` nearest to `|S| div 2` for the shoelace sum S; it
is `|S| div 2`, so that `2*Tri_Area <= |S| <= 2*Tri_Area + 1`, whenever
`|S| div 2` is at most 2^53, which always holds when the arithmetic is done
in the 32-bit `int`.  For the triangle (0,0), (1,0), (0,1), S is 1,
`Tri_Area` is 0 and `Radius` takes the zero-area branch and returns 0. -/
theorem Tri_Area_halved (t : NumTy) (A B C : Coord) (h : TriNoOverflow t A B C)
    (hAB : A ≠ B) (hAC : A ≠ C) (hBC : B ≠ C) :
    Tri_Area t A B C = toDouble (|shoelaceZ A B C| / 2) ∧
    (|shoelaceZ A B C| / 2 ≤ 2 ^ 53 →
      Tri_Area t A B C = |shoelaceZ A B C| / 2 ∧
      2 * Tri_Area t A B C ≤ |shoelaceZ A B C| ∧
      |shoelaceZ A B C| ≤ 2 * Tri_Area t A B C + 1) ∧
    (t.promote = .sint .w32 → |shoelaceZ A B C| / 2 ≤ 2 ^ 53) ∧
    shoelaceZ ⟨0, 0⟩ ⟨1, 0⟩ ⟨0, 1⟩ = 1 ∧
    Tri_Area t ⟨0, 0⟩ ⟨1, 0⟩ ⟨0, 1⟩ = 0 ∧
    Radius t (fun r => Real.sqrt (r : ℝ)) ⟨0, 0⟩ ⟨1, 0⟩ ⟨0, 1⟩ =
      (0, ["Area of the triangle is 0. Unable to find the radius."]) := by
  have c1 : check A B = false := by
    rw [← Bool.not_eq_true, check_iff]; exact hAB
  have c2 : check A C = false := by
    rw [← Bool.not_eq_true, check_iff]; exact hAC
  have c3 : check B C = false := by
    rw [← Bool.not_eq_true, check_iff]; exact hBC
  have h2 : |Int.tdiv (shoelaceZ A B C) 2| = |shoelaceZ A B C| / 2 := by
    rw [abs_tdiv]; rfl
  have hT : Tri_Area t A B C = toDouble (|shoelaceZ A B C| / 2) := by
    rw [Tri_Area_of_noOverflow t A B C h, Tri_Area_exact, c1, c2, c3, h2]
    rfl
  have hE : Tri_Area t ⟨0, 0⟩ ⟨1, 0⟩ ⟨0, 1⟩ = 0 := by
    cases t with
    | exact => decide
    | sint w => cases w <;> decide
    | uint w => cases w <;> decide
  refine ⟨hT, ?_, ?_, by decide, hE, ?_⟩
  · intro hb
    have hn : 0 ≤ |shoelaceZ A B C| / 2 := Int.ediv_nonneg (abs_nonneg _) (by norm_num)
    have hd : toDouble (|shoelaceZ A B C| / 2) = |shoelaceZ A B C| / 2 :=
      toDouble_of_le _ (by rw [abs_of_nonneg hn]; exact hb)
    rw [hT, hd]
    refine ⟨rfl, by omega, by omega⟩
  · intro hp
    have hr := h.2.2.2.2.1
    rw [h2] at hr
    unfold NumTy.arith at hr
    rw [hp] at hr
    simp only [NumTy.conv, wrapS, Width.bits] at hr
    norm_num at hr
    omega
  · unfold Radius
    simp only [hE, if_true, radiusMsg]

/-- C17, at the 32-bit signed triangle (0,0), (3,0), (0,1), where S = 3. -/
theorem Tri_Area_halved_witness :
    shoelaceZ ⟨0, 0⟩ ⟨3, 0⟩ ⟨0, 1⟩ = 3 ∧
    Tri_Area (.sint .w32) ⟨0, 0⟩ ⟨3, 0⟩ ⟨0, 1⟩ = |shoelaceZ ⟨0, 0⟩ ⟨3, 0⟩ ⟨0, 1⟩| / 2 :=
  ⟨by decide, ((Tri_Area_halved (.sint .w32) ⟨0, 0⟩ ⟨3, 0⟩ ⟨0, 1⟩ (by decide)
    (by decide) (by decide) (by decide)).2.1 (by decide)).1⟩

/-- C18: in the default unsigned 16-bit instantiation `Man_Dist(A, B)` is
`((A.x - B.x) mod 2^16) + ((A.y - B.y) mod 2^16)`, and
`Man_Dist(A, B) + Man_Dist(B, A)` is 65536 times the number of components in
which A and B differ. -/
theorem Man_Dist_uint16 (A B : Coord) (hA : Coord.WF (.uint .w16) A)
    (hB : Coord.WF (.uint .w16) B) :
    Man_Dist (.uint .w16) A B = (A.x - B.x) % 2 ^ 16 + (A.y - B.y) % 2 ^ 16 ∧
    Man_Dist (.uint .w16) A B + Man_Dist (.uint .w16) B A =
      65536 * ((if A.x = B.x then 0 else 1) + (if A.y = B.y then 0 else 1)) := by
  obtain ⟨ax, ay⟩ := A
  obtain ⟨bx, b_y⟩ := B
  obtain ⟨hax, hay⟩ := hA
  obtain ⟨hbx, hby⟩ := hB
  simp only [NumTy.conv, wrapU, Width.bits] at hax hay hbx hby
  norm_num at hax hay hbx hby
  simp only [Man_Dist, absolute, sub, NumTy.conv, NumTy.arith, NumTy.promote, wrapS, wrapU,
    Width.bits]
  norm_num
  constructor
  · split_ifs <;> omega
  · split_ifs <;> omega

/-- C18, at A = (0,5), B = (3,5) in the default instantiation: one component
differs and the two Manhattan distances add up to 65536. -/
theorem Man_Dist_uint16_witness :
    Man_Dist (.uint .w16) ⟨0, 5⟩ ⟨3, 5⟩ = 65533 ∧
    Man_Dist (.uint .w16) ⟨0, 5⟩ ⟨3, 5⟩ + Man_Dist (.uint .w16) ⟨3, 5⟩ ⟨0, 5⟩ = 65536 :=
  ⟨by decide, (Man_Dist_uint16 ⟨0, 5⟩ ⟨3, 5⟩ (by decide) (by decide)).2⟩

/-- C19 (counterexample): in the 64-bit signed instantiation, for
A = (1, 2^53 + 1), B = (0,0) nothing overflows in either order and the
truncated quotient dy/dx is 2^53 + 1, but `Slope(A, B)` returns the `double`
2^53. -/
theorem Slope_int64_rounded :
    SlopeNoOverflow (.sint .w64) ⟨1, 9007199254740993⟩ ⟨0, 0⟩ ∧
    SlopeNoOverflow (.sint .w64) ⟨0, 0⟩ ⟨1, 9007199254740993⟩ ∧
    Int.tdiv (9007199254740993 - 0) (1 - 0) = 9007199254740993 ∧
    Slope (.sint .w64) ⟨1, 9007199254740993⟩ ⟨0, 0⟩ = some (9007199254740992, []) := by
  refine ⟨by decide, by decide, by decide, by decide!⟩

/-- C19 (amended): without overflow and for `A.x != B.x`, `Slope(A, B)` is the
`double` nearest to the quotient of dy by dx truncated toward zero (whose
magnitude is the floor of `|dy| / |dx|` and whose sign is that of the ratio);
it is that quotient whenever its magnitude is at most 2^53, which always
holds when the arithmetic is done in the 32-bit `int`.  It is 0 whenever
`|dy| < |dx|`, as for `Slope((2,1), (0,0))`, and `Slope(A, B) = Slope(B, A)`. -/
theorem Slope_truncates (t : NumTy) (A B : Coord) (h1 : SlopeNoOverflow t A B)
    (h2 : SlopeNoOverflow t B A) (hx : A.x ≠ B.x) :
    Slope t A B = some (toDouble (Int.tdiv (A.y - B.y) (A.x - B.x)), []) ∧
    |Int.tdiv (A.y - B.y) (A.x - B.x)| = |A.y - B.y| / |A.x - B.x| ∧
    0 ≤ Int.tdiv (A.y - B.y) (A.x - B.x) * ((A.y - B.y) * (A.x - B.x)) ∧
    (|Int.tdiv (A.y - B.y) (A.x - B.x)| ≤ 2 ^ 53 →
      Slope t A B = some (Int.tdiv (A.y - B.y) (A.x - B.x), [])) ∧
    (t.promote = .sint .w32 → |Int.tdiv (A.y - B.y) (A.x - B.x)| ≤ 2 ^ 53) ∧
    (|A.y - B.y| < |A.x - B.x| → Slope t A B = some (0, [])) ∧
    Slope t A B = Slope t B A ∧
    Slope t ⟨2, 1⟩ ⟨0, 0⟩ = some (0, []) := by
  have hS := Slope_of_noOverflow t A B h1 hx
  have hR := Slope_of_noOverflow t B A h2 (fun e => hx e.symm)
  have hE : Slope t ⟨2, 1⟩ ⟨0, 0⟩ = some (0, []) := by
    cases t with
    | exact => decide
    | sint w => cases w <;> decide
    | uint w => cases w <;> decide
  refine ⟨hS, abs_tdiv _ _, tdiv_sign _ _, ?_, ?_, ?_, ?_, hE⟩
  · intro hb
    rw [hS, toDouble_of_le _ hb]
  · intro hp
    have hr := h1.2.2
    unfold NumTy.inP NumTy.arith at hr
    rw [hp] at hr
    simp only [NumTy.conv, wrapS, Width.bits] at hr
    norm_num at hr
    rw [abs_le]
    constructor <;> omega
  · intro hlt
    rw [hS]
    have h0 : |Int.tdiv (A.y - B.y) (A.x - B.x)| = 0 := by
      rw [abs_tdiv]
      exact Int.ediv_eq_zero_of_lt (abs_nonneg _) hlt
    rw [abs_eq_zero.mp h0]
    rfl
  · rw [hS, hR]
    have e1 : B.y - A.y = -(A.y - B.y) := by ring
    have e2 : B.x - A.x = -(A.x - B.x) := by ring
    rw [e1, e2, Int.neg_tdiv_neg]

/-- C19, at A = (7,-9), B = (3,1) in the 32-bit signed instantiation:
dy/dx = -10/4 is truncated to -2 in both orders. -/
theorem Slope_truncates_witness :
    Slope (.sint .w32) ⟨7, -9⟩ ⟨3, 1⟩ = some (-2, []) ∧
    Slope (.sint .w32) ⟨7, -9⟩ ⟨3, 1⟩ = Slope (.sint .w32) ⟨3, 1⟩ ⟨7, -9⟩ :=
  ⟨((Slope_truncates (.sint .w32) ⟨7, -9⟩ ⟨3, 1⟩ (by decide) (by decide) (by decide)).1).trans
      (by decide),
   (Slope_truncates (.sint .w32) ⟨7, -9⟩ ⟨3, 1⟩ (by decide) (by decide)
      (by decide)).2.2.2.2.2.2.1⟩

/-- C12 (counterexample): in `Coord<float>`, for A = (+inf, 0) the
difference `(A-A).x` is inf - inf, a NaN, so the radicand of `Dist(A, A)` is
a NaN, not 0, and the fast square root of it is not a finite value. -/
theorem Dist_float_inf :
    isInf 0x7f800000 = true ∧
    isNaN (subF ⟨0x7f800000, 0⟩ ⟨0x7f800000, 0⟩).x = true ∧
    isNaN (radicandF ⟨0x7f800000, 0⟩ ⟨0x7f800000, 0⟩) = true ∧
    radicandF ⟨0x7f800000, 0⟩ ⟨0x7f800000, 0⟩ ≠ 0 ∧
    _sqrt (radicandF ⟨0x7f800000, 0⟩ ⟨0x7f800000, 0⟩) = none := by
  refine ⟨by decide, by decide, by decide, by decide, by decide⟩

set_option maxRecDepth 100000 in
/-- C12 (amended): `Dist(A, A)` is exactly 0 for every coordinate of every
integer instantiation, and of `Coord<float>` when the components of A are
finite, with either square root strategy: the radicand is 0, the exact
variant returns sqrt(0) = 0, `inv_sqrt(0)` is the finite float with bits
0x5fce451a, and the fast variant returns `0 * inv_sqrt(0)`, the float 0. -/
theorem Dist_self_zero (t : NumTy) (A : Coord) (FA : FCoord)
    (hF : decode FA.x ≠ none ∧ decode FA.y ≠ none) :
    (radicand t A A = 0 ∧
      Dist t (fun r => Real.sqrt (r : ℝ)) A A = 0 ∧
      ofInt 0 = some 0 ∧
      inv_sqrt 0 = some 0x5fce451a ∧
      decode 0x5fce451a = some ⟨false, 13518106, 41⟩ ∧
      fmul 0 0x5fce451a = some 0 ∧
      Dist t (fun r => (ofInt r).bind _sqrt) A A = some 0 ∧
      decode 0 = some ⟨false, 0, -149⟩) ∧
    (radicandF FA FA = 0 ∧
      _sqrt (radicandF FA FA) = some 0 ∧
      (decode (radicandF FA FA)).map (fun d => Real.sqrt ((d.val : ℚ) : ℝ)) = some 0) := by
  obtain ⟨c0, a0⟩ := conv_arith_zero t
  have hr : radicand t A A = 0 := by
    unfold radicand sub
    simp only [sub_self, a0, c0, mul_zero, add_zero]
  have hi : inv_sqrt 0 = some 0x5fce451a := by decide!
  have hq : _sqrt 0 = some 0 := by decide!
  have hd0 : decode 0 = some ⟨false, 0, -149⟩ := by decide!
  have hrF : radicandF FA FA = 0 := by
    unfold radicandF subF
    simp only [fsubT_self _ hF.1, fsubT_self _ hF.2]
    decide
  refine ⟨⟨hr, ?_, by decide!, hi, by decide!, by decide!, ?_, hd0⟩, hrF, ?_, ?_⟩
  · unfold Dist
    rw [hr]
    simp
  · unfold Dist
    rw [hr]
    have h0 : ofInt 0 = some 0 := by decide!
    show (ofInt 0).bind _sqrt = some 0
    rw [h0]
    exact hq
  · rw [hrF]; exact hq
  · rw [hrF, hd0]
    simp [Dyadic.val]

set_option maxRecDepth 100000 in
/-- C12, at the `uint16_t` point (3,4) and the `float` point (1.0, -2.0). -/
theorem Dist_self_zero_witness :
    radicand (.uint .w16) ⟨3, 4⟩ ⟨3, 4⟩ = 0 ∧
    radicandF ⟨0x3f800000, 0xc0000000⟩ ⟨0x3f800000, 0xc0000000⟩ = 0 ∧
    _sqrt (radicandF ⟨0x3f800000, 0xc0000000⟩ ⟨0x3f800000, 0xc0000000⟩) = some 0 :=
  ⟨(Dist_self_zero (.uint .w16) ⟨3, 4⟩ ⟨0x3f800000, 0xc0000000⟩
      ⟨by decide, by decide⟩).1.1,
   (Dist_self_zero (.uint .w16) ⟨3, 4⟩ ⟨0x3f800000, 0xc0000000⟩
      ⟨by decide, by decide⟩).2.1,
   (Dist_self_zero (.uint .w16) ⟨3, 4⟩ ⟨0x3f800000, 0xc0000000⟩
      ⟨by decide, by decide⟩).2.2.1⟩

/-- C14: for every float of the sample `sqrtSample` (positive normal
values), the fast square root `_sqrt(v) = v * inv_sqrt(v)` is finite and its
relative error against the real square root is below 1e-3. -/
theorem fast_sqrt_rel_err : ∀ v ∈ sqrtSample,
    ∃ dv s ds, decode v = some dv ∧ dv.neg = false ∧ 0 < dv.n ∧
      _sqrt v = some s ∧ decode s = some ds ∧
      |((ds.val : ℚ) : ℝ) - Real.sqrt ((dv.val : ℚ) : ℝ)| / Real.sqrt ((dv.val : ℚ) : ℝ)
        < 1e-3 := by
  intro v hv
  exact fastSqrtOK_sound v (sqrtSample_ok v hv)

set_option maxRecDepth 100000 in
/-- C14, at the float 4.0 (bits 0x40800000), a member of the sample. -/
theorem fast_sqrt_rel_err_witness :
    0x40800000 ∈ sqrtSample ∧
    ∃ dv s ds, decode 0x40800000 = some dv ∧ dv.neg = false ∧ 0 < dv.n ∧
      _sqrt 0x40800000 = some s ∧ decode s = some ds ∧
      |((ds.val : ℚ) : ℝ) - Real.sqrt ((dv.val : ℚ) : ℝ)| / Real.sqrt ((dv.val : ℚ) : ℝ)
        < 1e-3 :=
  ⟨by decide!, fast_sqrt_rel_err 0x40800000 (by decide!)⟩

/-- C20: over the reals and for `v > 0`, one refinement step of `inv_sqrt`
fixes `1/sqrt(v)` and maps the estimate `(1 + d)/sqrt(v)` to
`(1 - 1.5 d^2 - 0.5 d^3)/sqrt(v)`; from an estimate with `|d| <= 0.035` the
two steps give a relative error below 1e-3 for `inv_sqrt(v)` and for
`_sqrt(v) = v * inv_sqrt(v)`. -/
theorem newton_refinement (v d : ℝ) (hv : 0 < v) :
    newtonStep (0.5 * v) (1 / Real.sqrt v) = 1 / Real.sqrt v ∧
    newtonStep (0.5 * v) ((1 + d) / Real.sqrt v)
      = (1 - 1.5 * d ^ 2 - 0.5 * d ^ 3) / Real.sqrt v ∧
    (|d| ≤ 0.035 →
      |inv_sqrt_real v ((1 + d) / Real.sqrt v) - 1 / Real.sqrt v| / (1 / Real.sqrt v) < 1e-3 ∧
      |sqrt_real v ((1 + d) / Real.sqrt v) - Real.sqrt v| / Real.sqrt v < 1e-3) := by
  have hs : 0 < Real.sqrt v := Real.sqrt_pos.mpr hv
  have hss : Real.sqrt v * Real.sqrt v = v := Real.mul_self_sqrt hv.le
  refine ⟨?_, ?_, ?_⟩
  · have h := newtonStep_err v hv 0
    simp only [add_zero] at h
    rw [h]
    norm_num
  · rw [newtonStep_err v hv d]
    congr 1
    ring
  · intro hd
    have e1 := newton_err_bound d 0.035 hd
    have e2 := newton_err_bound (-(1.5 * d ^ 2) - 0.5 * d ^ 3)
      (1.5 * 0.035 ^ 2 + 0.5 * 0.035 ^ 3) e1
    obtain ⟨d2, hd2⟩ : ∃ d2 : ℝ, d2 = -(1.5 * (-(1.5 * d ^ 2) - 0.5 * d ^ 3) ^ 2)
        - 0.5 * (-(1.5 * d ^ 2) - 0.5 * d ^ 3) ^ 3 := ⟨_, rfl⟩
    rw [← hd2] at e2
    have hx : inv_sqrt_real v ((1 + d) / Real.sqrt v) = (1 + d2) / Real.sqrt v := by
      unfold inv_sqrt_real
      simp only
      rw [newtonStep_err v hv d, newtonStep_err v hv _, hd2]
    have hd2s : |d2| < 1e-3 := lt_of_le_of_lt e2 (by norm_num)
    constructor
    · rw [hx]
      have h1 : (1 + d2) / Real.sqrt v - 1 / Real.sqrt v = d2 / Real.sqrt v := by ring
      rw [h1, abs_div, abs_of_pos hs]
      have h2 : |d2| / Real.sqrt v / (1 / Real.sqrt v) = |d2| := by field_simp
      rw [h2]
      exact hd2s
    · unfold sqrt_real
      rw [hx]
      have h1 : v * ((1 + d2) / Real.sqrt v) = (1 + d2) * Real.sqrt v := by
        field_simp
        rw [mul_assoc, hss, mul_comm]
      have h2 : v * ((1 + d2) / Real.sqrt v) - Real.sqrt v = d2 * Real.sqrt v := by
        rw [h1]; ring
      rw [h2, abs_mul, abs_of_pos hs]
      have h3 : |d2| * Real.sqrt v / Real.sqrt v = |d2| := by field_simp
      rw [h3]
      exact hd2s

/-- C20, at v = 4 and d = 0.03. -/
theorem newton_refinement_witness :
    |inv_sqrt_real (4 : ℝ) ((1 + 0.03) / Real.sqrt 4) - 1 / Real.sqrt 4| / (1 / Real.sqrt 4)
      < 1e-3 ∧
    |sqrt_real (4 : ℝ) ((1 + 0.03) / Real.sqrt 4) - Real.sqrt 4| / Real.sqrt 4 < 1e-3 :=
  (newton_refinement 4 0.03 (by norm_num)).2.2 (by rw [abs_of_pos] <;> norm_num)

end CoordSpec
